/-
  Verification of documented behavior of the pysheeet repository.

  Shallow embedding of:
  * src/basic/generator.py — tokenize / parse / NodeVisitor / Evaluator / evaluate
    (the generator-based recursive-descent arithmetic expression pipeline);
  * src/basic/heap.py — the heapq-based wrappers and the IndexedHeap class;
  * src/basic/list.py — create_trie / trie_has_prefix;
  and spec-side reference semantics to compare them against.

  Conventions of the embedding:
  * Python numbers are modelled as ℤ (integer literals) and ℚ (evaluation
    results; `/` is Python true division, idealized over the rationals,
    undefined on a zero divisor).
  * Raising an exception is modelled as `none` in an `Option` result.
  * Mutable state is passed explicitly; the heap.py wrappers additionally
    return the final value of the list their caller passed in, so that
    argument mutation (or its absence) is observable.
  * `heapq` is the CPython standard library (not code of this repository);
    it is modelled by its documented observable contract, with a heap
    represented as a list kept sorted by the entry ordering: `heappush`
    inserts at the ordered position, `heappop` removes the head (the
    minimum).  Tie order between equal keys is irrelevant to every claim
    treated below.
-/
import Mathlib

set_option linter.all false

/-! ### Tokens and the tokenizer (generator.py, `tokenize`) -/

/-- A lexical token, as produced by `tokenize` in generator.py.  A `NUMBER`
token carries its matched text (`m.group()`); the four operator tokens'
texts are determined by their kind. -/
inductive Tok where
  | number (s : List Char)
  | plus
  | minus
  | times
  | divide
deriving DecidableEq, Repr

/-- Python `\s` on ASCII text: space, tab, newline, carriage return,
vertical tab, form feed. -/
def isWsChar (c : Char) : Bool :=
  c == ' ' || c == '\t' || c == '\n' || c == '\r' ||
  c == Char.ofNat 11 || c == Char.ofNat 12

/-- `tokenize` from generator.py.  The regex scanner matches, at the current
position, one of `\d+` (greedy, hence a maximal digit run), one operator
character, or `\s+`; WS matches are filtered out of the yielded stream;
scanning stops silently at the first position at which no pattern matches. -/
def tokenize : List Char → List Tok
  | [] => []
  | c :: cs =>
    if c.isDigit then
      Tok.number (c :: cs.takeWhile Char.isDigit) :: tokenize (cs.dropWhile Char.isDigit)
    else if c = '+' then Tok.plus :: tokenize cs
    else if c = '-' then Tok.minus :: tokenize cs
    else if c = '*' then Tok.times :: tokenize cs
    else if c = '/' then Tok.divide :: tokenize cs
    else if isWsChar c then tokenize (cs.dropWhile isWsChar)
    else []
termination_by l => l.length
decreasing_by
  all_goals simp only [List.length_cons]
  · exact Nat.lt_succ_of_le (List.dropWhile_sublist _).length_le
  · exact Nat.lt_succ_self _
  · exact Nat.lt_succ_self _
  · exact Nat.lt_succ_self _
  · exact Nat.lt_succ_self _
  · exact Nat.lt_succ_of_le (List.dropWhile_sublist _).length_le

/-- Python `int` applied to a string of decimal digits (as `parse.factor`
does with `int(current.value)`). -/
def digitsVal (s : List Char) : ℕ :=
  s.foldl (fun a c => 10 * a + (c.toNat - 48)) 0

/-! ### The AST (generator.py, classes `Number` and `BinOp`) -/

/-- The AST of generator.py: `Number` holds the `int` of the matched text,
`BinOp` holds the operator's matched text (a Python string) and the two
subtrees. -/
inductive Node where
  | Number (value : ℤ)
  | BinOp (op : String) (left right : Node)
deriving DecidableEq, Repr

/-! ### The recursive-descent parser (generator.py, `parse`) -/

/-- The `while accept("TIMES", "DIVIDE")` loop inside `term`: each iteration
accepts the operator, and then `factor()` demands a NUMBER token, raising
SyntaxError (modelled `none`) otherwise. -/
def termAux : Node → List Tok → Option (Node × List Tok)
  | left, Tok.times :: Tok.number s :: ts =>
      termAux (Node.BinOp "*" left (Node.Number (digitsVal s))) ts
  | _, Tok.times :: _ => none
  | left, Tok.divide :: Tok.number s :: ts =>
      termAux (Node.BinOp "/" left (Node.Number (digitsVal s))) ts
  | _, Tok.divide :: _ => none
  | left, ts => some (left, ts)

/-- `term()` of `parse`: `factor()` (which demands a NUMBER token) followed
by the multiplicative loop. -/
def termF : List Tok → Option (Node × List Tok)
  | Tok.number s :: ts => termAux (Node.Number (digitsVal s)) ts
  | _ => none

theorem termAux_length : ∀ (left : Node) (ts : List Tok) (n : Node) (ts' : List Tok),
    termAux left ts = some (n, ts') → ts'.length ≤ ts.length := by
  intro left ts
  induction left, ts using termAux.induct with
  | case1 left s ts ih =>
      intro n ts' h
      rw [termAux] at h
      exact le_trans (ih _ _ h) (by simp; omega)
  | case2 left ts h1 =>
      intro n ts' h
      simp [termAux] at h
  | case3 left s ts ih =>
      intro n ts' h
      rw [termAux] at h
      exact le_trans (ih _ _ h) (by simp; omega)
  | case4 left ts h1 =>
      intro n ts' h
      simp [termAux] at h
  | case5 left ts h1 h2 h3 h4 =>
      intro n ts' h
      rw [termAux.eq_def] at h
      split at h
      · exact absurd rfl (h1 _ _)
      · exact absurd rfl (h2 _)
      · exact absurd rfl (h3 _ _)
      · exact absurd rfl (h4 _)
      · cases h
        exact le_refl _

theorem termF_length {ts : List Tok} {n : Node} {ts' : List Tok}
    (h : termF ts = some (n, ts')) : ts'.length < ts.length := by
  match ts, h with
  | Tok.number s :: ts0, h =>
      rw [termF] at h
      exact Nat.lt_succ_of_le (termAux_length _ _ _ _ h)

/-- The `while accept("PLUS", "MINUS")` loop inside `expr`: each iteration
accepts the operator and parses a full `term()`. -/
def exprAux : Node → List Tok → Option (Node × List Tok)
  | left, Tok.plus :: ts1 =>
      (match h : termF ts1 with
       | some (r, ts2) => exprAux (Node.BinOp "+" left r) ts2
       | none => none)
  | left, Tok.minus :: ts1 =>
      (match h : termF ts1 with
       | some (r, ts2) => exprAux (Node.BinOp "-" left r) ts2
       | none => none)
  | left, ts => some (left, ts)
termination_by _ ts => ts.length
decreasing_by
  · simp only [List.length_cons]
    exact Nat.lt_succ_of_le (le_of_lt (termF_length h))
  · simp only [List.length_cons]
    exact Nat.lt_succ_of_le (le_of_lt (termF_length h))

/-- `parse` from generator.py: `expr()` is `term()` followed by the additive
loop; the result is returned as soon as the loop stops, ignoring any
remaining tokens.  A SyntaxError from `factor` is `none`. -/
def parseToks (ts : List Tok) : Option Node :=
  match termF ts with
  | some (l, ts1) => (exprAux l ts1).map Prod.fst
  | none => none

/-! ### The generator-trampoline evaluator (generator.py, `NodeVisitor` and
`Evaluator`) -/

/-- The `ops` dictionary lookup followed by the application in
`visit_BinOp`: `+`, `-`, `*` are total; `/` is Python true division, which
raises ZeroDivisionError on a zero divisor; any other key raises KeyError. -/
def applyOp (op : String) (a b : ℚ) : Option ℚ :=
  if op = "+" then some (a + b)
  else if op = "-" then some (a - b)
  else if op = "*" then some (a * b)
  else if op = "/" then (if b = 0 then none else some (a / b))
  else none

/-- A suspended `genvisit` generator on the visitor's stack:
* `numF v` — a generator for a `Number` node, about to return `v`;
* `bin0 op l r` — a generator for a `BinOp` node that has not yet yielded;
* `bin1 op r` — it has yielded the left child and awaits `leftval`;
* `bin2 op lv` — it has yielded the right child and awaits `rightval`. -/
inductive Frame where
  | numF (v : ℤ)
  | bin0 (op : String) (l r : Node)
  | bin1 (op : String) (r : Node)
  | bin2 (op : String) (lv : ℚ)

/-- Weight of a node for the termination measure of the trampoline. -/
def fw : Node → ℕ
  | .Number _ => 1
  | .BinOp _ l r => 3 + fw l + fw r

/-- Weight of a frame for the termination measure of the trampoline. -/
def frameW : Frame → ℕ
  | .numF _ => 1
  | .bin0 _ l r => 3 + fw l + fw r
  | .bin1 _ r => 2 + fw r
  | .bin2 _ _ => 1

/-- Total weight of the visitor's stack. -/
def stackW (st : List Frame) : ℕ := (st.map frameW).sum

/-- `genvisit(node)`: the freshly created generator for a node. -/
def frameOf : Node → Frame
  | .Number v => .numF v
  | .BinOp op l r => .bin0 op l r

theorem frameW_frameOf (n : Node) : frameW (frameOf n) = fw n := by
  cases n <;> rfl

/-- The `while stack` loop of `NodeVisitor.visit`: `ret` is the value sent
into the topmost generator (`none` models Python `None`).  Yielding a node
pushes its generator; `StopIteration` pops and carries the returned value;
an exception raised by the operator application aborts the whole visit. -/
def exec : List Frame → Option ℚ → Option ℚ
  | [], ret => ret
  | Frame.numF v :: st, _ => exec st (some (v : ℚ))
  | Frame.bin0 op l r :: st, _ => exec (frameOf l :: Frame.bin1 op r :: st) none
  | Frame.bin1 op r :: st, some lv => exec (frameOf r :: Frame.bin2 op lv :: st) none
  | Frame.bin1 _ _ :: _, none => none
  | Frame.bin2 op lv :: st, some rv =>
      (match applyOp op lv rv with
       | some v => exec st (some v)
       | none => none)
  | Frame.bin2 _ _ :: _, none => none
termination_by st _ => stackW st
decreasing_by
  · simp only [stackW, List.map_cons, List.sum_cons, frameW]
    omega
  · simp only [stackW, List.map_cons, List.sum_cons, frameW_frameOf]
    simp only [frameW]
    omega
  · simp only [stackW, List.map_cons, List.sum_cons, frameW_frameOf]
    simp only [frameW]
    omega
  · simp only [stackW, List.map_cons, List.sum_cons, frameW]
    omega

/-- `Evaluator().visit(tree)`: the trampoline run on the initial stack. -/
def visit (t : Node) : Option ℚ := exec [frameOf t] none

/-- The naive recursive evaluation of a tree: a `Number` evaluates to its
value; a `BinOp` evaluates its left subtree, then its right subtree, then
applies its operator to the two results. -/
def evalNode : Node → Option ℚ
  | .Number v => some (v : ℚ)
  | .BinOp op l r =>
      (evalNode l).bind fun a => (evalNode r).bind fun b => applyOp op a b

/-- `evaluate` from generator.py: tokenize, parse, then visit. -/
def evaluate (s : String) : Option ℚ :=
  match parseToks (tokenize s.toList) with
  | some t => visit t
  | none => none

/-! ### Spec-side semantics of arithmetic expressions.

Modelled from the spec's words for comparison with the code: an expression
is a non-empty sequence of non-negative decimal integer literals separated
by the binary operators `+`, `-`, `*`, `/`, with optional whitespace
between lexemes; `*` and `/` bind tighter than `+` and `-`; operators of
equal precedence apply left-to-right; `/` is true division (undefined on a
zero divisor). -/

/-- An abstract binary operator of the spec. -/
inductive BOp where
  | plus
  | minus
  | times
  | divide
deriving DecidableEq, Repr

/-- Spec-side arithmetic meaning of one operator, with true division
undefined on a zero divisor. -/
def applyB : BOp → ℚ → ℚ → Option ℚ
  | .plus, a, b => some (a + b)
  | .minus, a, b => some (a - b)
  | .times, a, b => some (a * b)
  | .divide, a, b => if b = 0 then none else some (a / b)

/-- Split off the maximal leading run of multiplicative (tighter-binding)
operators from an operator/operand sequence. -/
def takeMulRun {α : Type} : List (BOp × α) → List (BOp × α) × List (BOp × α)
  | (BOp.times, n) :: ps =>
      ((BOp.times, n) :: (takeMulRun ps).1, (takeMulRun ps).2)
  | (BOp.divide, n) :: ps =>
      ((BOp.divide, n) :: (takeMulRun ps).1, (takeMulRun ps).2)
  | (BOp.plus, n) :: ps => ([], (BOp.plus, n) :: ps)
  | (BOp.minus, n) :: ps => ([], (BOp.minus, n) :: ps)
  | [] => ([], [])

theorem takeMulRun_snd_length {α : Type} (ps : List (BOp × α)) :
    (takeMulRun ps).2.length ≤ ps.length := by
  induction ps with
  | nil => simp [takeMulRun]
  | cons p ps ih =>
      obtain ⟨op, n⟩ := p
      cases op <;> simp [takeMulRun] <;> omega

/-- Left-to-right evaluation of a run of equal-precedence multiplicative
operators, starting from an accumulated value. -/
def termValQ : Option ℚ → List (BOp × ℤ) → Option ℚ
  | x, [] => x
  | x, (op, n) :: ps => termValQ (x.bind fun a => applyB op a (n : ℚ)) ps

/-- Left-to-right evaluation of the additive level: each step takes one
additive operator, evaluates the following multiplicative run as one term,
and combines it with the accumulator. -/
def specGo : Option ℚ → List (BOp × ℤ) → Option ℚ
  | acc, [] => acc
  | acc, (op, n) :: rest =>
      specGo
        (acc.bind fun a =>
          (termValQ (some (n : ℚ)) (takeMulRun rest).1).bind fun t => applyB op a t)
        (takeMulRun rest).2
termination_by _ ps => ps.length
decreasing_by
  simp only [List.length_cons]
  exact Nat.lt_succ_of_le (takeMulRun_snd_length _)

/-- Spec-side arithmetic value of the expression `n0 op1 n1 op2 n2 …`:
`*`/`/` bind tighter than `+`/`-`, equal precedence associates to the
left, `/` is true division. -/
def specEval (n0 : ℤ) (ps : List (BOp × ℤ)) : Option ℚ :=
  specGo (termValQ (some (n0 : ℚ)) (takeMulRun ps).1) (takeMulRun ps).2

/-- The Python operator string of an abstract operator. -/
def bopStr : BOp → String
  | .plus => "+"
  | .minus => "-"
  | .times => "*"
  | .divide => "/"

/-- The AST a left-to-right multiplicative run folds into. -/
def mulTree : Node → List (BOp × ℤ) → Node
  | l, [] => l
  | l, (op, n) :: ps => mulTree (Node.BinOp (bopStr op) l (Node.Number n)) ps

/-- The AST the additive level folds into, term by term. -/
def specTreeGo : Node → List (BOp × ℤ) → Node
  | acc, [] => acc
  | acc, (op, n) :: rest =>
      specTreeGo
        (Node.BinOp (bopStr op) acc (mulTree (Node.Number n) (takeMulRun rest).1))
        (takeMulRun rest).2
termination_by _ ps => ps.length
decreasing_by
  simp only [List.length_cons]
  exact Nat.lt_succ_of_le (takeMulRun_snd_length _)

/-- The precedence-correct AST of the expression `n0 op1 n1 op2 n2 …`. -/
def specTree (n0 : ℤ) (ps : List (BOp × ℤ)) : Node :=
  specTreeGo (mulTree (Node.Number n0) (takeMulRun ps).1) (takeMulRun ps).2

/-! ### Rendering well-formed expression strings -/

/-- One "operator then literal" segment of a rendered expression, with the
optional whitespace around the operator. -/
structure Seg where
  ws1 : List Char
  opc : Char
  ws2 : List Char
  digs : List Char

/-- The characters a segment contributes. -/
def renderSeg (s : Seg) : List Char := s.ws1 ++ [s.opc] ++ s.ws2 ++ s.digs

/-- A rendered expression: optional leading whitespace, the first literal,
the segments, optional trailing whitespace. -/
def render (ws0 d0 : List Char) (ps : List Seg) (wsE : List Char) : List Char :=
  ws0 ++ d0 ++ (ps.map renderSeg).flatten ++ wsE

/-- All characters are whitespace. -/
abbrev goodWs (l : List Char) : Prop := ∀ c ∈ l, isWsChar c = true

/-- A non-empty run of decimal digits. -/
abbrev goodNum (l : List Char) : Prop := l ≠ [] ∧ ∀ c ∈ l, c.isDigit = true

/-- One of the four operator characters. -/
abbrev goodOp (c : Char) : Prop := c = '+' ∨ c = '-' ∨ c = '*' ∨ c = '/'

/-- A well-formed segment. -/
abbrev goodSeg (s : Seg) : Prop := goodWs s.ws1 ∧ goodOp s.opc ∧ goodWs s.ws2 ∧ goodNum s.digs

/-- The abstract operator of an operator character. -/
def bopOfChar (c : Char) : BOp :=
  if c = '+' then BOp.plus
  else if c = '-' then BOp.minus
  else if c = '*' then BOp.times
  else BOp.divide

/-- The token of an operator character. -/
def opTok (c : Char) : Tok :=
  if c = '+' then Tok.plus
  else if c = '-' then Tok.minus
  else if c = '*' then Tok.times
  else Tok.divide

/-- The abstract (operator, literal value) pair of a segment. -/
def segPair (s : Seg) : BOp × ℤ := (bopOfChar s.opc, (digitsVal s.digs : ℤ))

/-- The token stream contributed by the segments of a rendering. -/
def toksOfSegs (ps : List Seg) : List Tok :=
  (ps.map fun s => [opTok s.opc, Tok.number s.digs]).flatten

/-- The token of an abstract operator. -/
def tokOfB : BOp → Tok
  | .plus => Tok.plus
  | .minus => Tok.minus
  | .times => Tok.times
  | .divide => Tok.divide

/-- The abstract (operator, literal text) pair of a segment. -/
def segTok (s : Seg) : BOp × List Char := (bopOfChar s.opc, s.digs)

/-- The token stream of a list of (operator, literal text) pairs. -/
def toksOfPairs (qs : List (BOp × List Char)) : List Tok :=
  (qs.map fun q => [tokOfB q.1, Tok.number q.2]).flatten

/-- Evaluate the literal text of a pair, keeping the operator. -/
def pv (q : BOp × List Char) : BOp × ℤ := (q.1, (digitsVal q.2 : ℤ))

/-- A string is a well-formed arithmetic expression exactly when it is a
rendering of a literal/operator alternation with optional whitespace. -/
def WellFormedStr (s : String) : Prop :=
  ∃ ws0 d0 ps wsE, goodWs ws0 ∧ goodNum d0 ∧ (∀ x ∈ ps, goodSeg x) ∧ goodWs wsE ∧
    s.toList = render ws0 d0 ps wsE

/-! Character class facts -/

/-! Prepending lemmas for `tokenize` -/

/-- All operator strings in a tree are among the four the `ops` dictionary
of `visit_BinOp` knows. -/
def opsOK : Node → Bool
  | .Number _ => true
  | .BinOp op l r =>
      (op == "+" || op == "-" || op == "*" || op == "/") && opsOK l && opsOK r

/-! ### Lexeme decompositions (for the tokenizer claim) -/

/-- One lexeme of an input to `tokenize`: a run of digits, one operator
character, or a run of whitespace. -/
inductive Lexeme where
  | numL (d : List Char)
  | opL (c : Char)
  | wsL (w : List Char)
deriving DecidableEq, Repr

/-- The characters of one lexeme. -/
def lexChars : Lexeme → List Char
  | .numL d => d
  | .opL c => [c]
  | .wsL w => w

/-- The input string a lexeme decomposition denotes. -/
def lexRender (L : List Lexeme) : List Char := (L.map lexChars).flatten

/-- The token a lexeme produces, if any: whitespace produces none. -/
def lexTok : Lexeme → Option Tok
  | .numL d => some (Tok.number d)
  | .opL c => some (opTok c)
  | .wsL _ => none

/-- The tokens of a lexeme decomposition, in order, whitespace dropped. -/
def lexToks (L : List Lexeme) : List Tok := L.filterMap lexTok

/-- A valid lexeme: a non-empty digit run, an operator character, or a
non-empty whitespace run. -/
def goodLex : Lexeme → Prop
  | .numL d => goodNum d
  | .opL c => goodOp c
  | .wsL w => w ≠ [] ∧ goodWs w

instance : DecidablePred goodLex := fun x =>
  match x with
  | .numL d => inferInstanceAs (Decidable (goodNum d))
  | .opL c => inferInstanceAs (Decidable (goodOp c))
  | .wsL w => inferInstanceAs (Decidable (w ≠ [] ∧ goodWs w))

/-- Runs are maximal: no two adjacent digit runs and no two adjacent
whitespace runs. -/
def sepOKb : List Lexeme → Bool
  | Lexeme.numL _ :: Lexeme.numL _ :: _ => false
  | Lexeme.wsL _ :: Lexeme.wsL _ :: _ => false
  | _ :: rest => sepOKb rest
  | [] => true

/-! ### The trie (list.py, `create_trie` / `trie_has_prefix`)

The Python trie is a nested `defaultdict`: each node maps characters to
child nodes, and the end of an inserted word is marked under the key
`True`, which maps to the word itself.  Keys are unique and `True` is not a
character, so a node is modelled as a children association list plus an
optional end marker. -/

/-- A trie node: `children` models the character keys of the nested
defaultdict, `endWord` models the `True` key holding the inserted word. -/
inductive Trie where
  | mk (children : List (Char × Trie)) (endWord : Option (List Char))

/-- The character-keyed entries of a node. -/
def Trie.children : Trie → List (Char × Trie)
  | .mk ch _ => ch

/-- The `True`-keyed entry of a node. -/
def Trie.endWord : Trie → Option (List Char)
  | .mk _ e => e

/-- `Trie()` — a fresh empty defaultdict node. -/
def emptyTrie : Trie := Trie.mk [] none

/-- Python dict key lookup on the children. -/
def lookupChild : List (Char × Trie) → Char → Option Trie
  | [], _ => none
  | (k, t) :: rest, c => if k = c then some t else lookupChild rest c

/-- Python dict key assignment on the children: replace the (unique)
existing entry or append a new one. -/
def setChild : List (Char × Trie) → Char → Trie → List (Char × Trie)
  | [], c, t => [(c, t)]
  | (k, t0) :: rest, c, t =>
      if k = c then (c, t) :: rest else (k, t0) :: setChild rest c t

/-- One step of `reduce(dict.__getitem__, word, trie)` followed by the final
`[True] = word` assignment: walking a missing character key triggers the
defaultdict's `__missing__`, which inserts a fresh empty node. -/
def insertT : Trie → List Char → List Char → Trie
  | t, [], w => Trie.mk t.children (some w)
  | t, c :: rest, w =>
      Trie.mk
        (setChild t.children c
          (insertT
            (match lookupChild t.children c with
             | some child => child
             | none => emptyTrie)
            rest w))
        t.endWord

/-- `create_trie` from list.py: insert each word in order into a fresh trie. -/
def create_trie (words : List (List Char)) : Trie :=
  words.foldl (fun t w => insertT t w w) emptyTrie

/-- `trie_has_prefix` from list.py, with the final trie returned alongside
the boolean so that any modification by the lookup would be observable: for
each character the code first tests `c not in curr` and only then reads
`curr[c]`, so the defaultdict's `__missing__` is never triggered. -/
def trie_has_prefix : Trie → List Char → Bool × Trie
  | t, [] => (true, t)
  | t, c :: p =>
      (match lookupChild t.children c with
       | none => (false, t)
       | some child =>
           (( trie_has_prefix child p).1,
             Trie.mk (setChild t.children c ( trie_has_prefix child p).2) t.endWord))

/-- `p` is a prefix of `w`. -/
def PrefOf (p w : List Char) : Prop := ∃ t, p ++ t = w

/-! ### merge_sorted (heap.py) — `list(heapq.merge(*iterables))`.

`heapq.merge` is stdlib; modelled by its documented observable behavior:
repeatedly emit the smallest current head among the inputs, ties going to
the earliest input. -/

/-- Select the smallest current head among the input lists (earliest input
wins ties), returning it and the inputs with that element consumed. -/
def pickMin : List (List ℤ) → Option (ℤ × List (List ℤ))
  | [] => none
  | [] :: rest =>
      (match pickMin rest with
       | none => none
       | some (v, ls) => some (v, [] :: ls))
  | (x :: xs) :: rest =>
      (match pickMin rest with
       | none => some (x, xs :: rest)
       | some (v, ls) =>
           if x ≤ v then some (x, xs :: rest)
           else some (v, (x :: xs) :: ls))

theorem pickMin_flatten {ls : List (List ℤ)} {v : ℤ} {ls' : List (List ℤ)}
    (h : pickMin ls = some (v, ls')) :
    ls.flatten.Perm (v :: ls'.flatten) := by
  induction ls generalizing v ls' with
  | nil => simp [pickMin] at h
  | cons l rest ih =>
      cases l with
      | nil =>
          rw [pickMin] at h
          cases hr : pickMin rest with
          | none =>
              rw [hr] at h
              simp at h
          | some p =>
              obtain ⟨v0, ls0⟩ := p
              rw [hr] at h
              simp only [Option.some.injEq, Prod.mk.injEq] at h
              obtain ⟨hv, hl⟩ := h
              subst hv
              subst hl
              simpa using ih hr
      | cons x xs =>
          rw [pickMin] at h
          cases hr : pickMin rest with
          | none =>
              rw [hr] at h
              simp only [Option.some.injEq, Prod.mk.injEq] at h
              obtain ⟨hv, hl⟩ := h
              subst hv
              subst hl
              simp
          | some p =>
              obtain ⟨v0, ls0⟩ := p
              rw [hr] at h
              simp only at h
              by_cases hx : x ≤ v0
              · rw [if_pos hx] at h
                simp only [Option.some.injEq, Prod.mk.injEq] at h
                obtain ⟨hv, hl⟩ := h
                subst hv
                subst hl
                simp
              · rw [if_neg hx] at h
                simp only [Option.some.injEq, Prod.mk.injEq] at h
                obtain ⟨hv, hl⟩ := h
                subst hv
                subst hl
                have hperm := ih hr
                have h1 : ((x :: xs) ++ rest.flatten).Perm ((x :: xs) ++ (v0 :: ls0.flatten)) :=
                  hperm.append_left _
                have h2 : ((x :: xs) ++ (v0 :: ls0.flatten)).Perm (v0 :: ((x :: xs) ++ ls0.flatten)) :=
                  List.perm_middle
                simpa using h1.trans h2

theorem pickMin_flatten_length {ls : List (List ℤ)} {v : ℤ} {ls' : List (List ℤ)}
    (h : pickMin ls = some (v, ls')) :
    ls'.flatten.length + 1 = ls.flatten.length := by
  have := (pickMin_flatten h).length_eq
  simp only [List.length_cons] at this
  omega

/-- The k-way merge: repeatedly emit the smallest current head. -/
def mergeAll (ls : List (List ℤ)) : List ℤ :=
  match h : pickMin ls with
  | none => []
  | some (v, ls') => v :: mergeAll ls'
termination_by ls.flatten.length
decreasing_by
  have := pickMin_flatten_length h
  omega

/-- `merge_sorted` from heap.py: `list(heapq.merge(*iterables))`, with
`heapq.merge` modelled as the k-way merge above. -/
def merge_sorted (ls : List (List ℤ)) : List ℤ := mergeAll ls

/-! ### heap.py wrappers and argument mutation.

`heapq.heapify`, `heappush`, `heappop` are stdlib, modelled on the
sorted-list refinement of the heap contract.  Each repository wrapper is
translated line by line; its result pairs the Python return value with the
final value of the list object the caller passed in, so mutating the
caller's list (as `heap_push`/`heap_pop` do) differs observably from
working on a copy (as `heapify_list`, `heap_sort`, `max_heap_sort` do). -/

/-- `heapq.heapify` (in place on its own argument): the heap is modelled as
the sorted arrangement. -/
def pyHeapify (l : List ℤ) : List ℤ := l.insertionSort (· ≤ ·)

/-- `heapq.heappush`: insert keeping the heap (sorted-list model) shape. -/
def pyHeappush (h : List ℤ) (x : ℤ) : List ℤ := List.orderedInsert (· ≤ ·) x h

/-- `heapq.heappop`: remove and return the smallest element; IndexError on
an empty heap. -/
def pyHeappop : List ℤ → Option (ℤ × List ℤ)
  | [] => none
  | x :: rest => some (x, rest)

/-- `heapify_list` from heap.py: `h = items.copy(); heapq.heapify(h);
return h`.  The copy gives `h` its own cell, so the caller's list is the
unchanged `items`. -/
def heapify_list (items : List ℤ) : List ℤ × List ℤ :=
  (pyHeapify items, items)

/-- `heap_push` from heap.py: `heapq.heappush(h, item); return h` — the
caller's list is mutated in place, so its final value is the pushed heap. -/
def heap_push (h : List ℤ) (item : ℤ) : List ℤ × List ℤ :=
  (pyHeappush h item, pyHeappush h item)

/-- `heap_pop` from heap.py: `return heapq.heappop(h)` — the caller's list
loses its head (and an empty list raises IndexError, leaving it empty). -/
def heap_pop (h : List ℤ) : Option ℤ × List ℤ :=
  match pyHeappop h with
  | none => (none, h)
  | some (x, rest) => (some x, rest)

/-- The `[heapq.heappop(h) for _ in range(len(h))]` comprehension. -/
def popAll : List ℤ → ℕ → List ℤ
  | _, 0 => []
  | h, n + 1 =>
      (match pyHeappop h with
       | none => []
       | some (x, rest) => x :: popAll rest n)

/-- `heap_sort` from heap.py: copy, heapify, pop everything. -/
def heap_sort (items : List ℤ) : List ℤ × List ℤ :=
  (popAll (pyHeapify items) (pyHeapify items).length, items)

/-- `max_heap_sort` from heap.py: negate into a fresh list, heapify, pop
everything, negating back. -/
def max_heap_sort (items : List ℤ) : List ℤ × List ℤ :=
  ((popAll (pyHeapify (items.map (fun x => -x)))
      (pyHeapify (items.map (fun x => -x))).length).map (fun x => -x),
    items)

/-! ### IndexedHeap (heap.py) — heap with priority updates.

Entries are the mutable two-element lists `[priority, item]` shared between
`self.heap` and `self.entry_finder`; `remove` overwrites the item slot with
the REMOVED marker in place, which is visible through the heap.  The store
models the entry objects (indexed by allocation order); the heap holds
entry indices (the sorted-list refinement of heapq, ordered by the entry's
current `[priority, item]` key at push time); `entry_finder` is the dict.
A slot of `none` is the REMOVED marker, a distinct object which displays as
the string `"<removed>"` in comparisons but is distinguished from any user
string by identity (`is not`). -/

/-- The textual form of `IndexedHeap.REMOVED` used in entry comparisons. -/
def REMOVED : String := "<removed>"

/-- The state of an `IndexedHeap` object. -/
structure IHState where
  store : List (ℤ × Option String)
  heap : List ℕ
  entry_finder : String → Option ℕ

/-- The entry object at an index of the store. -/
def entryAt (st : List (ℤ × Option String)) (id : ℕ) : ℤ × Option String :=
  st.getD id (0, none)

/-- How an item slot displays in list comparisons. -/
def keyStr : Option String → String
  | none => REMOVED
  | some s => s

/-- The current `[priority, item]` comparison key of an entry. -/
def entryKey (st : List (ℤ × Option String)) (id : ℕ) : ℤ × String :=
  ((entryAt st id).1, keyStr (entryAt st id).2)

/-- Python's lexicographic `<=` on `[priority, item]` lists. -/
def keyLeB (a b : ℤ × String) : Bool :=
  decide (a.1 < b.1) || (decide (a.1 = b.1) && decide (a.2 ≤ b.2))

/-- `heapq.heappush` of an entry index into the heap (sorted-list model):
insert at the position determined by the entries' current keys. -/
def insHeap (st : List (ℤ × Option String)) (id : ℕ) : List ℕ → List ℕ
  | [] => [id]
  | j :: js =>
      if keyLeB (entryKey st id) (entryKey st j) then id :: j :: js
      else j :: insHeap st id js

/-- `IndexedHeap.__init__`. -/
def ihInit : IHState := ⟨[], [], fun _ => none⟩

/-- The body of `remove`: `entry = self.entry_finder.pop(item);
entry[-1] = self.REMOVED` for an entry known to sit at `id`. -/
def eraseEntry (s : IHState) (item : String) (id : ℕ) : IHState :=
  ⟨s.store.set id ((entryAt s.store id).1, none),
   s.heap,
   fun x => if x = item then none else s.entry_finder x⟩

/-- `IndexedHeap.remove`: `entry_finder.pop(item)` raises KeyError when the
item is absent. -/
def ihRemove (s : IHState) (item : String) : Option IHState :=
  match s.entry_finder item with
  | none => none
  | some id => some (eraseEntry s item id)

/-- `IndexedHeap.push`: remove a stale entry if present, allocate the new
entry `[priority, item]`, register it and heappush it. -/
def ihPush (s : IHState) (item : String) (prio : ℤ) : IHState :=
  let s1 := match s.entry_finder item with
            | some id => eraseEntry s item id
            | none => s
  let st' := s1.store ++ [(prio, some item)]
  ⟨st', insHeap st' s1.store.length s1.heap,
   fun x => if x = item then some s1.store.length else s1.entry_finder x⟩

/-- `IndexedHeap.pop`: pop heap entries until a live one appears, delete it
from the finder and return its item; KeyError (`none`) when the heap runs
out. -/
def ihPop (s : IHState) : Option (String × IHState) :=
  match hh : s.heap with
  | [] => none
  | id :: rest =>
      (match (entryAt s.store id).2 with
       | some item =>
           some (item, ⟨s.store, rest, fun x => if x = item then none else s.entry_finder x⟩)
       | none => ihPop ⟨s.store, rest, s.entry_finder⟩)
termination_by s.heap.length
decreasing_by
  simp only [hh, List.length_cons]
  omega

/-- One operation of the C3/C8 operation sequences. -/
inductive IHOp where
  | push (item : String) (prio : ℤ)
  | remove (item : String)

/-- Execute one operation (`none` = the operation raised). -/
def ihStep (s : IHState) : IHOp → Option IHState
  | .push it p => some (ihPush s it p)
  | .remove it => ihRemove s it

/-- Execute a sequence of operations from a given state. -/
def ihRunFrom (s : IHState) : List IHOp → Option IHState
  | [] => some s
  | op :: ops =>
      (match ihStep s op with
       | none => none
       | some s' => ihRunFrom s' ops)

/-- Execute a sequence of operations on a fresh `IndexedHeap()`. -/
def ihRun (ops : List IHOp) : Option IHState := ihRunFrom ihInit ops

/-- The structural invariant of a reachable `IndexedHeap` state: the heap
is sorted by current priority; heap indices are in range and distinct;
`entry_finder` and the live slots are inverse to each other. -/
def IHInv (s : IHState) : Prop :=
  s.heap.Sorted (fun a b => (entryAt s.store a).1 ≤ (entryAt s.store b).1)
  ∧ (∀ id ∈ s.heap, id < s.store.length)
  ∧ s.heap.Nodup
  ∧ (∀ it id, s.entry_finder it = some id →
      id ∈ s.heap ∧ (entryAt s.store id).2 = some it)
  ∧ (∀ id ∈ s.heap, ∀ it, (entryAt s.store id).2 = some it →
      s.entry_finder it = some id)

/-- The priority the most recent un-removed push gave each item: the
reference map C8 compares `entry_finder` against. -/
def specF : (String → Option ℤ) → List IHOp → String → Option ℤ
  | m, [] => m
  | m, IHOp.push it p :: ops => specF (fun x => if x = it then some p else m x) ops
  | m, IHOp.remove it :: ops => specF (fun x => if x = it then none else m x) ops

/-! ### Proofs -/

theorem ws_props {c : Char} (h : isWsChar c = true) :
    c.isDigit = false ∧ c ≠ '+' ∧ c ≠ '-' ∧ c ≠ '*' ∧ c ≠ '/' := by
  simp only [isWsChar, Bool.or_eq_true, beq_iff_eq] at h
  rcases h with ((((h | h) | h) | h) | h) | h <;> subst h <;> decide

theorem goodOp_props {c : Char} (h : goodOp c) :
    c.isDigit = false ∧ isWsChar c = false := by
  rcases h with h | h | h | h <;> subst h <;> decide

theorem digit_not_ws {c : Char} (h : c.isDigit = true) : isWsChar c = false := by
  cases hw : isWsChar c
  · rfl
  · rw [(ws_props hw).1] at h
    exact absurd h (by simp)

theorem tokenize_ws_prepend (w rest : List Char) (hw : ∀ c ∈ w, isWsChar c = true)
    (hr : ∀ c, rest.head? = some c → isWsChar c = false) :
    tokenize (w ++ rest) = tokenize rest := by
  cases w with
  | nil => rfl
  | cons c w' =>
      have hc : isWsChar c = true := hw c (by simp)
      obtain ⟨hcd, hc1, hc2, hc3, hc4⟩ := ws_props hc
      rw [List.cons_append, tokenize]
      rw [if_neg (by simp [hcd]), if_neg hc1, if_neg hc2, if_neg hc3, if_neg hc4,
        if_pos hc]
      have hdw : (w' ++ rest).dropWhile isWsChar = rest.dropWhile isWsChar :=
        List.dropWhile_append_of_pos (fun a ha => hw a (by simp [ha]))
      rw [hdw]
      cases rest with
      | nil => rfl
      | cons r rest' =>
          rw [List.dropWhile_cons_of_neg (by simp [hr r (by simp)])]

theorem tokenize_digits_prepend (d rest : List Char) (hd : d ≠ [])
    (hdd : ∀ c ∈ d, c.isDigit = true)
    (hr : ∀ c, rest.head? = some c → c.isDigit = false) :
    tokenize (d ++ rest) = Tok.number d :: tokenize rest := by
  cases d with
  | nil => exact absurd rfl hd
  | cons c d' =>
      have hc : c.isDigit = true := hdd c (by simp)
      rw [List.cons_append, tokenize, if_pos hc]
      have htw : (d' ++ rest).takeWhile Char.isDigit = d' ++ rest.takeWhile Char.isDigit :=
        List.takeWhile_append_of_pos (fun a ha => hdd a (by simp [ha]))
      have hdw : (d' ++ rest).dropWhile Char.isDigit = rest.dropWhile Char.isDigit :=
        List.dropWhile_append_of_pos (fun a ha => hdd a (by simp [ha]))
      rw [htw, hdw]
      cases rest with
      | nil => simp
      | cons r rest' =>
          rw [List.takeWhile_cons_of_neg (by simp [hr r (by simp)]),
            List.dropWhile_cons_of_neg (by simp [hr r (by simp)]),
            List.append_nil]

theorem tokenize_op_prepend (c : Char) (rest : List Char) (hc : goodOp c) :
    tokenize (c :: rest) = opTok c :: tokenize rest := by
  rcases hc with h | h | h | h <;> subst h <;>
    rw [tokenize] <;> simp +decide [opTok]

theorem head_tail_not_digit (ps : List Seg) (wsE : List Char)
    (h2 : ∀ x ∈ ps, goodSeg x) (h3 : goodWs wsE) :
    ∀ c, ((ps.map renderSeg).flatten ++ wsE).head? = some c → c.isDigit = false := by
  cases ps with
  | nil =>
      intro c hc
      simp only [List.map_nil, List.flatten_nil, List.nil_append] at hc
      cases wsE with
      | nil => simp at hc
      | cons w ws =>
          simp only [List.head?_cons, Option.some.injEq] at hc
          subst hc
          exact (ws_props (h3 w (by simp))).1
  | cons sg ps' =>
      intro c hc
      obtain ⟨hw1, hop, hw2, hdg⟩ := h2 sg (by simp)
      cases hws1 : sg.ws1 with
      | nil =>
          simp only [List.map_cons, List.flatten_cons, renderSeg, hws1, List.nil_append,
            List.cons_append, List.append_assoc, List.head?_cons, Option.some.injEq] at hc
          subst hc
          exact (goodOp_props hop).1
      | cons a as =>
          simp only [List.map_cons, List.flatten_cons, renderSeg, hws1, List.cons_append,
            List.append_assoc, List.head?_cons, Option.some.injEq] at hc
          subst hc
          exact (ws_props (hw1 a (by simp [hws1]))).1

theorem tokenize_tail (ps : List Seg) (wsE : List Char)
    (h2 : ∀ x ∈ ps, goodSeg x) (h3 : goodWs wsE) :
    tokenize ((ps.map renderSeg).flatten ++ wsE) = toksOfSegs ps := by
  induction ps with
  | nil =>
      simp only [List.map_nil, List.flatten_nil, List.nil_append, toksOfSegs]
      have h0 : tokenize ([] : List Char) = [] := by rw [tokenize]
      have := tokenize_ws_prepend wsE [] h3 (by simp)
      rw [List.append_nil] at this
      rw [this, h0]
  | cons sg ps' ih =>
      obtain ⟨hw1, hop, hw2, hdg⟩ := h2 sg (by simp)
      have hops := goodOp_props hop
      simp only [List.map_cons, List.flatten_cons, renderSeg, List.append_assoc]
      rw [tokenize_ws_prepend sg.ws1 _ hw1 (by intro c hc; simp at hc; rw [← hc]; exact hops.2)]
      rw [show (([sg.opc] ++ (sg.ws2 ++ (sg.digs ++ ((ps'.map renderSeg).flatten ++ wsE)))) : List Char)
            = sg.opc :: (sg.ws2 ++ (sg.digs ++ ((ps'.map renderSeg).flatten ++ wsE))) from rfl]
      rw [tokenize_op_prepend sg.opc _ hop]
      rw [tokenize_ws_prepend sg.ws2 _ hw2 (by
        intro c hc
        cases hd : sg.digs with
        | nil => exact absurd hd hdg.1
        | cons b bs =>
            simp only [hd, List.cons_append, List.head?_cons, Option.some.injEq] at hc
            subst hc
            exact digit_not_ws (hdg.2 b (by simp [hd])))]
      rw [tokenize_digits_prepend sg.digs _ hdg.1 hdg.2
        (head_tail_not_digit ps' wsE (fun x hx => h2 x (by simp [hx])) h3)]
      rw [ih (fun x hx => h2 x (by simp [hx]))]
      simp [toksOfSegs]

theorem tokenize_render (ws0 d0 : List Char) (ps : List Seg) (wsE : List Char)
    (h0 : goodWs ws0) (h1 : goodNum d0) (h2 : ∀ x ∈ ps, goodSeg x) (h3 : goodWs wsE) :
    tokenize (render ws0 d0 ps wsE) = Tok.number d0 :: toksOfSegs ps := by
  unfold render
  rw [List.append_assoc, List.append_assoc]
  rw [tokenize_ws_prepend ws0 _ h0 (by
    intro c hc
    cases hd : d0 with
    | nil => exact absurd hd h1.1
    | cons b bs =>
        simp only [hd, List.cons_append, List.head?_cons, Option.some.injEq] at hc
        subst hc
        exact digit_not_ws (h1.2 b (by simp [hd])))]
  rw [tokenize_digits_prepend d0 _ h1.1 h1.2 (head_tail_not_digit ps wsE h2 h3)]
  rw [tokenize_tail ps wsE h2 h3]

theorem opTok_eq_tokOfB {c : Char} (h : goodOp c) : opTok c = tokOfB (bopOfChar c) := by
  rcases h with h | h | h | h <;> subst h <;> rfl

theorem toksOfSegs_eq_pairs (ps : List Seg) (h : ∀ x ∈ ps, goodSeg x) :
    toksOfSegs ps = toksOfPairs (ps.map segTok) := by
  induction ps with
  | nil => rfl
  | cons sg ps' ih =>
      obtain ⟨hw1, hop, hw2, hdg⟩ := h sg (by simp)
      simp only [toksOfSegs, toksOfPairs, List.map_cons, List.flatten_cons] at *
      rw [opTok_eq_tokOfB hop]
      rw [ih (fun x hx => h x (by simp [hx]))]
      rfl

theorem takeMulRun_mul {α : Type} (ps : List (BOp × α)) :
    ∀ q ∈ (takeMulRun ps).1, q.1 = BOp.times ∨ q.1 = BOp.divide := by
  induction ps with
  | nil => simp [takeMulRun]
  | cons p ps' ih =>
      obtain ⟨op, n⟩ := p
      cases op <;> simp [takeMulRun] <;>
        (try exact fun q hq => ih q hq) <;>
        (try exact fun a b hq => ih ⟨a, b⟩ hq)

theorem takeMulRun_add_head {α : Type} (ps : List (BOp × α)) :
    ∀ q, (takeMulRun ps).2.head? = some q → q.1 = BOp.plus ∨ q.1 = BOp.minus := by
  induction ps with
  | nil => simp [takeMulRun]
  | cons p ps' ih =>
      obtain ⟨op, n⟩ := p
      cases op <;> simp [takeMulRun] <;>
        first
        | exact fun a b h => ih (a, b) h
        | skip

theorem takeMulRun_append {α : Type} (ps : List (BOp × α)) :
    (takeMulRun ps).1 ++ (takeMulRun ps).2 = ps := by
  induction ps with
  | nil => simp [takeMulRun]
  | cons p ps' ih =>
      obtain ⟨op, n⟩ := p
      cases op <;> simp [takeMulRun] <;> exact ih

theorem takeMulRun_map_pv (qs : List (BOp × List Char)) :
    takeMulRun (qs.map pv) = ((takeMulRun qs).1.map pv, (takeMulRun qs).2.map pv) := by
  induction qs with
  | nil => simp [takeMulRun]
  | cons q qs' ih =>
      obtain ⟨op, d⟩ := q
      cases op <;> simp [takeMulRun, pv, ih]

theorem toksOfPairs_append (a b : List (BOp × List Char)) :
    toksOfPairs (a ++ b) = toksOfPairs a ++ toksOfPairs b := by
  simp [toksOfPairs]

theorem termAux_run (run : List (BOp × List Char)) :
    ∀ (l : Node) (rest : List Tok),
      (∀ q ∈ run, q.1 = BOp.times ∨ q.1 = BOp.divide) →
      (∀ t, rest.head? = some t → t ≠ Tok.times ∧ t ≠ Tok.divide) →
      termAux l (toksOfPairs run ++ rest) = some (mulTree l (run.map pv), rest) := by
  induction run with
  | nil =>
      intro l rest _ hrest
      simp only [toksOfPairs, List.map_nil, List.flatten_nil, List.nil_append, mulTree]
      cases rest with
      | nil => rfl
      | cons t rest' =>
          obtain ⟨h1, h2⟩ := hrest t (by simp)
          cases t with
          | number s => rfl
          | plus => rfl
          | minus => rfl
          | times => exact absurd rfl h1
          | divide => exact absurd rfl h2
  | cons q run' ih =>
      intro l rest hmul hrest
      obtain ⟨op, d⟩ := q
      have hop := hmul (op, d) (by simp)
      simp only at hop
      rcases hop with h | h <;> subst h
      · have hts : toksOfPairs ((BOp.times, d) :: run') ++ rest
            = Tok.times :: Tok.number d :: (toksOfPairs run' ++ rest) := by
          simp [toksOfPairs, tokOfB]
        rw [hts, termAux, ih _ _ (fun q hq => hmul q (by simp [hq])) hrest]
        simp [mulTree, pv, bopStr]
      · have hts : toksOfPairs ((BOp.divide, d) :: run') ++ rest
            = Tok.divide :: Tok.number d :: (toksOfPairs run' ++ rest) := by
          simp [toksOfPairs, tokOfB]
        rw [hts, termAux, ih _ _ (fun q hq => hmul q (by simp [hq])) hrest]
        simp [mulTree, pv, bopStr]

theorem toksOfPairs_head_not_mul (rest : List (BOp × List Char))
    (h : ∀ q, rest.head? = some q → q.1 = BOp.plus ∨ q.1 = BOp.minus) :
    ∀ t, (toksOfPairs rest).head? = some t → t ≠ Tok.times ∧ t ≠ Tok.divide := by
  intro t ht
  cases rest with
  | nil => simp [toksOfPairs] at ht
  | cons q0 rest' =>
      have h0 := h q0 (by simp)
      have hh : (toksOfPairs (q0 :: rest')).head? = some (tokOfB q0.1) := by
        simp [toksOfPairs]
      rw [hh] at ht
      injection ht with ht
      subst ht
      rcases h0 with h0 | h0 <;> rw [h0] <;> exact ⟨by simp [tokOfB], by simp [tokOfB]⟩

theorem exprAux_pairs_aux : ∀ (k : ℕ) (qs : List (BOp × List Char)), qs.length ≤ k →
    ∀ l, (∀ q, qs.head? = some q → q.1 = BOp.plus ∨ q.1 = BOp.minus) →
    exprAux l (toksOfPairs qs) = some (specTreeGo l (qs.map pv), []) := by
  intro k
  induction k with
  | zero =>
      intro qs hk l hq
      have hqs : qs = [] := List.length_eq_zero.mp (Nat.le_zero.mp hk)
      subst hqs
      rw [show toksOfPairs [] = [] from rfl, exprAux.eq_def]
      simp [specTreeGo]
  | succ k ih =>
      intro qs hk l hq
      cases qs with
      | nil =>
          rw [show toksOfPairs [] = [] from rfl, exprAux.eq_def]
          simp [specTreeGo]
      | cons q qs' =>
          obtain ⟨op, d⟩ := q
          have hop := hq (op, d) (by simp)
          simp only at hop
          have htoks : toksOfPairs ((op, d) :: qs')
              = tokOfB op :: Tok.number d :: toksOfPairs qs' := by
            simp [toksOfPairs]
          have happ : toksOfPairs qs'
              = toksOfPairs (takeMulRun qs').1 ++ toksOfPairs (takeMulRun qs').2 := by
            rw [← toksOfPairs_append, takeMulRun_append]
          have htermF : termF (Tok.number d :: toksOfPairs qs')
              = some (mulTree (Node.Number (digitsVal d)) ((takeMulRun qs').1.map pv),
                  toksOfPairs (takeMulRun qs').2) := by
            rw [termF, happ]
            exact termAux_run _ _ _ (takeMulRun_mul qs')
              (toksOfPairs_head_not_mul _ (takeMulRun_add_head qs'))
          have hlen : (takeMulRun qs').2.length ≤ k := by
            have := takeMulRun_snd_length qs'
        
            simp only [List.length_cons] at hk
            omega
          have hrec := ih (takeMulRun qs').2 hlen
          have hgo : specTreeGo l (((op, d) :: qs').map pv)
              = specTreeGo (Node.BinOp (bopStr op) l
                  (mulTree (Node.Number (digitsVal d)) ((takeMulRun qs').1.map pv)))
                  ((takeMulRun qs').2.map pv) := by
            rw [List.map_cons, show pv (op, d) = (op, (digitsVal d : ℤ)) from rfl]
            rw [specTreeGo, takeMulRun_map_pv]
          rcases hop with h | h <;> subst h
          · rw [htoks, show tokOfB BOp.plus = Tok.plus from rfl]
            rw [exprAux.eq_def]
            simp only
            split
            · rename_i r ts2 heq
              rw [htermF] at heq
              injection heq with heq
              injection heq with heq1 heq2
              subst heq1
              subst heq2
              rw [hrec _ (takeMulRun_add_head qs'), hgo]
              rfl
            · rename_i heq
              rw [htermF] at heq
              exact absurd heq (by simp)
          · rw [htoks, show tokOfB BOp.minus = Tok.minus from rfl]
            rw [exprAux.eq_def]
            simp only
            split
            · rename_i r ts2 heq
              rw [htermF] at heq
              injection heq with heq
              injection heq with heq1 heq2
              subst heq1
              subst heq2
              rw [hrec _ (takeMulRun_add_head qs'), hgo]
              rfl
            · rename_i heq
              rw [htermF] at heq
              exact absurd heq (by simp)

theorem parseToks_pairs (d0 : List Char) (qs : List (BOp × List Char)) :
    parseToks (Tok.number d0 :: toksOfPairs qs)
      = some (specTree (digitsVal d0) (qs.map pv)) := by
  have happ : toksOfPairs qs
      = toksOfPairs (takeMulRun qs).1 ++ toksOfPairs (takeMulRun qs).2 := by
    rw [← toksOfPairs_append, takeMulRun_append]
  have htermF : termF (Tok.number d0 :: toksOfPairs qs)
      = some (mulTree (Node.Number (digitsVal d0)) ((takeMulRun qs).1.map pv),
          toksOfPairs (takeMulRun qs).2) := by
    rw [termF, happ]
    exact termAux_run _ _ _ (takeMulRun_mul qs)
      (toksOfPairs_head_not_mul _ (takeMulRun_add_head qs))
  rw [parseToks, htermF]
  dsimp only
  rw [exprAux_pairs_aux (takeMulRun qs).2.length (takeMulRun qs).2 (le_refl _) _
    (takeMulRun_add_head qs)]
  rw [specTree, takeMulRun_map_pv]
  rfl

theorem applyOp_bopStr (op : BOp) (a b : ℚ) :
    applyOp (bopStr op) a b = applyB op a b := by
  cases op <;> simp +decide [applyOp, applyB, bopStr]

theorem evalNode_mulTree (run : List (BOp × ℤ)) :
    ∀ l, evalNode (mulTree l run) = termValQ (evalNode l) run := by
  induction run with
  | nil => intro l; rfl
  | cons q run' ih =>
      intro l
      obtain ⟨op, n⟩ := q
      rw [mulTree, ih, termValQ]
      congr 1
      rw [evalNode]
      cases evalNode l with
      | none => rfl
      | some a =>
          simp only [Option.some_bind]
          rw [show evalNode (Node.Number n) = some (n : ℚ) from rfl]
          simp only [Option.some_bind]
          exact applyOp_bopStr op a n

theorem evalNode_specTreeGo : ∀ (k : ℕ) (ps : List (BOp × ℤ)), ps.length ≤ k →
    ∀ acc, evalNode (specTreeGo acc ps) = specGo (evalNode acc) ps := by
  intro k
  induction k with
  | zero =>
      intro ps hk acc
      have hps : ps = [] := List.length_eq_zero.mp (Nat.le_zero.mp hk)
      subst hps
      rw [specTreeGo, specGo]
  | succ k ih =>
      intro ps hk acc
      cases ps with
      | nil => rw [specTreeGo, specGo]
      | cons q rest =>
          obtain ⟨op, n⟩ := q
          rw [specTreeGo, specGo]
          rw [ih _ (by
            have := takeMulRun_snd_length rest
            simp only [List.length_cons] at hk
            omega)]
          congr 1
          rw [evalNode]
          cases evalNode acc with
          | none => rfl
          | some a =>
              simp only [Option.some_bind]
              rw [evalNode_mulTree]
              rw [show evalNode (Node.Number n) = some (n : ℚ) from rfl]
              cases termValQ (some (n : ℚ)) (takeMulRun rest).1 with
              | none => rfl
              | some t =>
                  simp only [Option.some_bind]
                  exact applyOp_bopStr op a t

theorem evalNode_specTree (n0 : ℤ) (ps : List (BOp × ℤ)) :
    evalNode (specTree n0 ps) = specEval n0 ps := by
  rw [specTree, specEval,
    evalNode_specTreeGo (takeMulRun ps).2.length (takeMulRun ps).2 (le_refl _),
    evalNode_mulTree]
  rfl

theorem exec_frameOf (t : Node) : ∀ st : List Frame,
    exec (frameOf t :: st) none = (evalNode t).bind fun v => exec st (some v) := by
  induction t with
  | Number v =>
      intro st
      rw [show frameOf (Node.Number v) = Frame.numF v from rfl, exec]
      rw [show evalNode (Node.Number v) = some (v : ℚ) from rfl, Option.some_bind]
  | BinOp op l r ihl ihr =>
      intro st
      rw [show frameOf (Node.BinOp op l r) = Frame.bin0 op l r from rfl, exec]
      rw [ihl]
      rw [show evalNode (Node.BinOp op l r)
            = (evalNode l).bind fun a => (evalNode r).bind fun b => applyOp op a b
          from rfl]
      cases evalNode l with
      | none => simp only [Option.none_bind]
      | some a =>
          simp only [Option.some_bind]
          rw [exec, ihr]
          cases evalNode r with
          | none => simp only [Option.none_bind]
          | some b =>
              simp only [Option.some_bind]
              rw [exec]
              cases applyOp op a b <;> rfl

/-- The stack-and-generator trampoline computes exactly the naive recursive
evaluation of the tree. -/
theorem visit_eq_evalNode (t : Node) : visit t = evalNode t := by
  rw [visit, exec_frameOf t []]
  cases evalNode t with
  | none => rfl
  | some v => rw [Option.some_bind, exec]

/-- The full pipeline on a rendered well-formed expression equals the
spec-side arithmetic semantics. -/
theorem evaluate_render_spec (ws0 d0 : List Char) (ps : List Seg) (wsE : List Char)
    (h0 : goodWs ws0) (h1 : goodNum d0) (h2 : ∀ x ∈ ps, goodSeg x) (h3 : goodWs wsE) :
    evaluate (String.mk (render ws0 d0 ps wsE))
      = specEval (digitsVal d0) (ps.map segPair) := by
  rw [evaluate]
  rw [show (String.mk (render ws0 d0 ps wsE)).toList = render ws0 d0 ps wsE from rfl]
  rw [tokenize_render ws0 d0 ps wsE h0 h1 h2 h3]
  rw [toksOfSegs_eq_pairs ps h2]
  rw [parseToks_pairs]
  dsimp only
  rw [visit_eq_evalNode, evalNode_specTree]
  rw [List.map_map]
  rfl

theorem toksOfSegs_length (ps : List Seg) : (toksOfSegs ps).length = 2 * ps.length := by
  induction ps with
  | nil => rfl
  | cons sg ps' ih => simp [toksOfSegs] at *; omega

theorem not_wellformed_one_two : ¬ WellFormedStr "1 2" := by
  rintro ⟨ws0, d0, ps, wsE, h0, h1, h2, h3, heq⟩
  have htok : tokenize ("1 2".toList) = Tok.number d0 :: toksOfSegs ps := by
    rw [heq]
    exact tokenize_render ws0 d0 ps wsE h0 h1 h2 h3
  have hval : tokenize ("1 2".toList) = [Tok.number ['1'], Tok.number ['2']] := by
    simp +decide [tokenize, String.toList]
  rw [hval] at htok
  injection htok with ha hb
  have hlen := toksOfSegs_length ps
  rw [← hb] at hlen
  simp at hlen
  omega

/-- **C1**: for every well-formed arithmetic expression string (a non-empty
sequence of non-negative decimal integer literals separated by `+`, `-`,
`*`, `/`, with optional whitespace between lexemes, given by its rendering),
`evaluate` returns the arithmetic value of the expression, with `*` and `/`
binding tighter than `+` and `-`, equal precedence applied left-to-right,
and `/` performing true division (so the result is `none` exactly when the
true-division value is undefined by a zero divisor, in which case Python
raises ZeroDivisionError). -/
theorem claim1_evaluate_correct (ws0 d0 : List Char) (ps : List Seg) (wsE : List Char)
    (h0 : goodWs ws0) (h1 : goodNum d0) (h2 : ∀ x ∈ ps, goodSeg x) (h3 : goodWs wsE) :
    evaluate (String.mk (render ws0 d0 ps wsE))
      = specEval (digitsVal d0) (ps.map segPair) :=
  evaluate_render_spec ws0 d0 ps wsE h0 h1 h2 h3

theorem claim1_witness :
    goodWs ([] : List Char)
    ∧ goodNum ['1', '0']
    ∧ (∀ x ∈ [Seg.mk [' '] '+' [' '] ['2'], Seg.mk [] '*' [] ['3']], goodSeg x)
    ∧ goodWs [' ']
    ∧ evaluate (String.mk (render [] ['1', '0']
        [Seg.mk [' '] '+' [' '] ['2'], Seg.mk [] '*' [] ['3']] [' ']))
      = specEval (digitsVal ['1', '0'])
          ([Seg.mk [' '] '+' [' '] ['2'], Seg.mk [] '*' [] ['3']].map segPair) :=
  ⟨by decide, by decide, by decide, by decide,
    claim1_evaluate_correct _ _ _ _ (by decide) (by decide) (by decide) (by decide)⟩

/-- **C2**: for every AST built from `Number` and `BinOp` nodes whose `op`
field is one of `+`, `-`, `*`, `/`, the stack-and-generator trampoline
`Evaluator().visit(tree)` returns the same value as the naive recursive
evaluation of the tree (a `Number` evaluates to its value; a `BinOp`
evaluates its left subtree, then its right subtree, then applies its
operator to the two results). -/
theorem claim2_visit_refines_recursion (t : Node) (h : opsOK t = true) :
    visit t = evalNode t :=
  visit_eq_evalNode t

theorem claim2_witness :
    opsOK (Node.BinOp "+" (Node.Number 1)
      (Node.BinOp "*" (Node.Number 2) (Node.Number 3))) = true
    ∧ visit (Node.BinOp "+" (Node.Number 1)
        (Node.BinOp "*" (Node.Number 2) (Node.Number 3)))
      = evalNode (Node.BinOp "+" (Node.Number 1)
          (Node.BinOp "*" (Node.Number 2) (Node.Number 3))) :=
  ⟨by decide, claim2_visit_refines_recursion _ (by decide)⟩

/-- **C9**: `tokenize` stops silently at the first character matching no
token pattern: on `"1+2#junk"` (a well-formed expression, an unrecognized
character, trailing text) it yields only the tokens of the well-formed
prefix `"1+2"`, and `evaluate` returns the value 3 of that prefix instead
of raising. -/
theorem claim9_tokenize_stops_silently :
    tokenize "1+2#junk".toList = [Tok.number ['1'], Tok.plus, Tok.number ['2']]
    ∧ tokenize "1+2".toList = [Tok.number ['1'], Tok.plus, Tok.number ['2']]
    ∧ evaluate "1+2#junk" = some 3
    ∧ evaluate "1+2#junk" = evaluate "1+2" := by
  refine ⟨?_, ?_, ?_, ?_⟩
  · simp +decide [tokenize, String.toList]
  · simp +decide [tokenize, String.toList]
  · simp +decide [evaluate, tokenize, parseToks, termF, termAux, exprAux, visit, exec,
      applyOp, frameOf, digitsVal, String.toList]
    norm_num
  · simp +decide [evaluate, tokenize, parseToks, termF, termAux, exprAux, visit, exec,
      applyOp, frameOf, digitsVal, String.toList]

/-- **C4 counterexample**: the claim "evaluate raises exactly on malformed
input" fails in both directions.  `"1/0"` is a well-formed expression
(literal, `/`, literal) yet `evaluate` raises ZeroDivisionError; `"1 2"` is
not well-formed (two literals with no operator between them) yet `evaluate`
returns 1 without raising, because `parse` ignores trailing tokens. -/
theorem claim4_counterexample :
    (WellFormedStr "1/0" ∧ evaluate "1/0" = none)
    ∧ (¬ WellFormedStr "1 2" ∧ evaluate "1 2" = some 1) := by
  refine ⟨⟨⟨[], ['1'], [Seg.mk [] '/' [] ['0']], [], ?_, ?_, ?_, ?_, ?_⟩, ?_⟩,
    not_wellformed_one_two, ?_⟩
  · decide
  · decide
  · decide
  · decide
  · decide
  · simp +decide [evaluate, tokenize, parseToks, termF, termAux, exprAux, visit, exec,
      applyOp, frameOf, digitsVal, String.toList]
  · simp +decide [evaluate, tokenize, parseToks, termF, termAux, exprAux, visit, exec,
      applyOp, frameOf, digitsVal, String.toList]

/-- **C4 (amended)**: on well-formed expressions, `evaluate` raises exactly
when the expression's true-division value is undefined (a division by zero
occurs), i.e. exactly when the spec-side value is `none`; `parse` raises
SyntaxError when a required NUMBER token is absent, but inputs that are not
well-formed are *not* guaranteed to raise (see the counterexample). -/
theorem claim4_raises_iff_value_undefined (ws0 d0 : List Char) (ps : List Seg)
    (wsE : List Char) (h0 : goodWs ws0) (h1 : goodNum d0)
    (h2 : ∀ x ∈ ps, goodSeg x) (h3 : goodWs wsE) :
    evaluate (String.mk (render ws0 d0 ps wsE)) = none
      ↔ specEval (digitsVal d0) (ps.map segPair) = none := by
  rw [evaluate_render_spec ws0 d0 ps wsE h0 h1 h2 h3]

theorem claim4_witness :
    evaluate (String.mk (render [] ['1'] [Seg.mk [] '/' [] ['0']] [])) = none
    ∧ evaluate (String.mk (render [] ['7'] [] [])) ≠ none := by
  constructor
  · exact (claim4_raises_iff_value_undefined [] ['1'] [Seg.mk [] '/' [] ['0']] []
      (by decide) (by decide) (by decide) (by decide)).mpr
      (by simp +decide [specEval, specGo, termValQ, takeMulRun, applyB, digitsVal])
  · intro hnone
    have := (claim4_raises_iff_value_undefined [] ['7'] [] []
      (by decide) (by decide) (by decide) (by decide)).mp hnone
    simp +decide [specEval, specGo, termValQ, takeMulRun, applyB, digitsVal] at this

theorem sepOKb_tail {x : Lexeme} {rest : List Lexeme}
    (h : sepOKb (x :: rest) = true) : sepOKb rest = true := by
  cases x <;> cases rest with
  | _ => first
    | exact h
    | (rename_i y rest'
       cases y <;> first
        | exact h
        | (rw [sepOKb] at h; exact h)
        | simp [sepOKb] at h)

theorem lexRender_head_not_digit (L : List Lexeme) (hL : ∀ x ∈ L, goodLex x)
    (h : ∀ d, L.head? ≠ some (Lexeme.numL d)) :
    ∀ c, (lexRender L).head? = some c → c.isDigit = false := by
  intro c hc
  cases L with
  | nil => simp [lexRender] at hc
  | cons x L' =>
      cases x with
      | numL d => exact absurd rfl (h d)
      | opL c0 =>
          simp only [lexRender, List.map_cons, List.flatten_cons, lexChars,
            List.cons_append, List.head?_cons, Option.some.injEq] at hc
          subst hc
          have hop : goodOp c0 := hL (Lexeme.opL c0) (by simp)
          exact (goodOp_props hop).1
      | wsL w =>
          have hw := hL (Lexeme.wsL w) (by simp)
          obtain ⟨hne, hws⟩ := hw
          cases w with
          | nil => exact absurd rfl hne
          | cons a as =>
              simp only [lexRender, List.map_cons, List.flatten_cons, lexChars,
                List.cons_append, List.head?_cons, Option.some.injEq] at hc
              subst hc
              exact (ws_props (hws a (by simp))).1

theorem lexRender_head_not_ws (L : List Lexeme) (hL : ∀ x ∈ L, goodLex x)
    (h : ∀ w, L.head? ≠ some (Lexeme.wsL w)) :
    ∀ c, (lexRender L).head? = some c → isWsChar c = false := by
  intro c hc
  cases L with
  | nil => simp [lexRender] at hc
  | cons x L' =>
      cases x with
      | wsL w => exact absurd rfl (h w)
      | opL c0 =>
          simp only [lexRender, List.map_cons, List.flatten_cons, lexChars,
            List.cons_append, List.head?_cons, Option.some.injEq] at hc
          subst hc
          have hop : goodOp c0 := hL (Lexeme.opL c0) (by simp)
          exact (goodOp_props hop).2
      | numL d =>
          have hd := hL (Lexeme.numL d) (by simp)
          obtain ⟨hne, hdd⟩ := hd
          cases d with
          | nil => exact absurd rfl hne
          | cons a as =>
              simp only [lexRender, List.map_cons, List.flatten_cons, lexChars,
                List.cons_append, List.head?_cons, Option.some.injEq] at hc
              subst hc
              exact digit_not_ws (hdd a (by simp))

/-- **C7**: on an input made of digit runs, operator characters and
whitespace runs (with runs maximal), `tokenize` yields exactly one token
per non-whitespace lexeme in left-to-right order — each maximal digit run
as a NUMBER token carrying its text, each operator character as its
operator token — with whitespace consumed and no WS token ever yielded. -/
theorem claim7_tokenize_lexemes (L : List Lexeme) (hL : ∀ x ∈ L, goodLex x)
    (hsep : sepOKb L = true) :
    tokenize (lexRender L) = lexToks L := by
  induction L with
  | nil => simp [lexRender, lexToks, tokenize]
  | cons x L' ih =>
      have hL' : ∀ y ∈ L', goodLex y := fun y hy => hL y (by simp [hy])
      have hx := hL x (by simp)
      have hrest := ih hL' (sepOKb_tail hsep)
      cases x with
      | numL d =>
          obtain ⟨hne, hdd⟩ := hx
          have hstep : lexRender (Lexeme.numL d :: L') = d ++ lexRender L' := by
            simp [lexRender, lexChars]
          rw [hstep, tokenize_digits_prepend d _ hne hdd
            (lexRender_head_not_digit L' hL' (by
              intro d' hd'
              cases L' with
              | nil => simp at hd'
              | cons y L'' =>
                  simp only [List.head?_cons, Option.some.injEq] at hd'
                  subst hd'
                  simp [sepOKb] at hsep)), hrest]
          rfl
      | opL c0 =>
          have hstep : lexRender (Lexeme.opL c0 :: L') = c0 :: lexRender L' := by
            simp [lexRender, lexChars]
          rw [hstep, tokenize_op_prepend c0 _ hx, hrest]
          rfl
      | wsL w =>
          obtain ⟨hne, hws⟩ := hx
          have hstep : lexRender (Lexeme.wsL w :: L') = w ++ lexRender L' := by
            simp [lexRender, lexChars]
          rw [hstep, tokenize_ws_prepend w _ hws
            (lexRender_head_not_ws L' hL' (by
              intro w' hw'
              cases L' with
              | nil => simp at hw'
              | cons y L'' =>
                  simp only [List.head?_cons, Option.some.injEq] at hw'
                  subst hw'
                  simp [sepOKb] at hsep)), hrest]
          rfl

theorem claim7_witness :
    (∀ x ∈ [Lexeme.wsL [' '], Lexeme.numL ['1', '2'], Lexeme.opL '+',
        Lexeme.numL ['3'], Lexeme.wsL [' ', ' ']], goodLex x)
    ∧ sepOKb [Lexeme.wsL [' '], Lexeme.numL ['1', '2'], Lexeme.opL '+',
        Lexeme.numL ['3'], Lexeme.wsL [' ', ' ']] = true
    ∧ tokenize (lexRender [Lexeme.wsL [' '], Lexeme.numL ['1', '2'], Lexeme.opL '+',
        Lexeme.numL ['3'], Lexeme.wsL [' ', ' ']])
      = lexToks [Lexeme.wsL [' '], Lexeme.numL ['1', '2'], Lexeme.opL '+',
          Lexeme.numL ['3'], Lexeme.wsL [' ', ' ']] :=
  ⟨by decide, by decide, claim7_tokenize_lexemes _ (by decide) (by decide)⟩

theorem setChild_self {ch : List (Char × Trie)} {c : Char} {t : Trie}
    (h : lookupChild ch c = some t) : setChild ch c t = ch := by
  induction ch with
  | nil => simp [lookupChild] at h
  | cons e rest ih =>
      obtain ⟨k, t0⟩ := e
      by_cases hk : k = c
      · subst hk
        rw [lookupChild, if_pos rfl] at h
        injection h with h
        subst h
        rw [setChild, if_pos rfl]
      · rw [lookupChild, if_neg hk] at h
        rw [setChild, if_neg hk, ih h]

theorem trie_has_prefix_snd : ∀ (p : List Char) (t : Trie),
    ( trie_has_prefix t p).2 = t := by
  intro p
  induction p with
  | nil => intro t; rfl
  | cons c p' ih =>
      intro t
      rw [ trie_has_prefix]
      cases hlk : lookupChild t.children c with
      | none => rfl
      | some child =>
          simp only
          rw [ih child, setChild_self hlk]
          cases t
          rfl

theorem trie_has_prefix_endWord (ch : List (Char × Trie)) (e e' : Option (List Char))
    (p : List Char) :
    ( trie_has_prefix (Trie.mk ch e) p).1 = ( trie_has_prefix (Trie.mk ch e') p).1 := by
  cases p with
  | nil => rfl
  | cons c p' =>
      rw [ trie_has_prefix, trie_has_prefix]
      simp only [Trie.children]
      cases lookupChild ch c <;> rfl

theorem lookupChild_setChild (ch : List (Char × Trie)) (a c : Char) (t' : Trie) :
    lookupChild (setChild ch a t') c = if a = c then some t' else lookupChild ch c := by
  induction ch with
  | nil => simp [setChild, lookupChild]
  | cons e rest ih =>
      obtain ⟨k, t0⟩ := e
      by_cases hk : k = a
      · subst hk
        rw [setChild, if_pos rfl]
        by_cases hac : k = c
        · simp [lookupChild, hac]
        · simp [lookupChild, hac]
      · rw [setChild, if_neg hk]
        by_cases hkc : k = c
        · have hac : ¬ a = c := by
            rw [← hkc]
            exact fun h => hk h.symm
          simp [lookupChild, hkc, hac]
        · simp [lookupChild, hkc, ih]

theorem empty_walk (p : List Char) :
    ( trie_has_prefix emptyTrie p).1 = true ↔ p = [] := by
  cases p with
  | nil => simp [ trie_has_prefix]
  | cons c p' =>
      rw [ trie_has_prefix]
      simp [emptyTrie, Trie.children, lookupChild]

theorem PrefOf_nil_left (w : List Char) : PrefOf [] w := ⟨w, rfl⟩

theorem PrefOf_cons_iff (c : Char) (p w : List Char) :
    PrefOf (c :: p) (c :: w) ↔ PrefOf p w := by
  constructor
  · rintro ⟨t, ht⟩
    injection ht with _ ht
    exact ⟨t, ht⟩
  · rintro ⟨t, ht⟩
    exact ⟨t, by rw [List.cons_append, ht]⟩

theorem PrefOf_cons_nil (c : Char) (p : List Char) : ¬ PrefOf (c :: p) [] := by
  rintro ⟨t, ht⟩
  simp at ht

theorem PrefOf_cons_ne {a c : Char} (p w : List Char) (h : ¬ a = c) :
    ¬ PrefOf (c :: p) (a :: w) := by
  rintro ⟨t, ht⟩
  injection ht with h1 _
  exact h h1.symm

theorem walk_cons (t : Trie) (c : Char) (p : List Char) :
    ( trie_has_prefix t (c :: p)).1
      = (match lookupChild t.children c with
         | none => false
         | some child => ( trie_has_prefix child p).1) := by
  rw [ trie_has_prefix]
  cases lookupChild t.children c <;> rfl

theorem walk_insert (p : List Char) : ∀ (t : Trie) (w word : List Char),
    ( trie_has_prefix (insertT t w word) p).1 = true
      ↔ (( trie_has_prefix t p).1 = true ∨ PrefOf p w) := by
  induction p with
  | nil =>
      intro t w word
      simp [ trie_has_prefix]
  | cons c p' ih =>
      intro t w word
      obtain ⟨ch, e⟩ := t
      cases w with
      | nil =>
          rw [show insertT (Trie.mk ch e) [] word = Trie.mk ch (some word) from rfl]
          rw [trie_has_prefix_endWord ch (some word) e (c :: p')]
          simp only [iff_self_or]
          intro hpre
          exact absurd hpre (PrefOf_cons_nil c p')
      | cons a w' =>
          rw [show insertT (Trie.mk ch e) (a :: w') word
                = Trie.mk (setChild ch a
                    (insertT
                      (match lookupChild ch a with
                       | some child => child
                       | none => emptyTrie) w' word)) e from rfl]
          rw [walk_cons, walk_cons]
          simp only [Trie.children]
          rw [lookupChild_setChild]
          by_cases hac : a = c
          · subst hac
            rw [if_pos rfl]
            dsimp only
            cases hlk : lookupChild ch a with
            | some child0 =>
                dsimp only
                rw [ih child0 w' word, PrefOf_cons_iff]
            | none =>
                dsimp only
                rw [ih emptyTrie w' word, empty_walk, PrefOf_cons_iff]
                simp only [Bool.false_eq_true, false_or]
                constructor
                · rintro (hp | hp)
                  · subst hp
                    exact PrefOf_nil_left w'
                  · exact hp
                · exact fun hp => Or.inr hp
          · rw [if_neg hac]
            have hnp := PrefOf_cons_ne p' w' hac
            cases lookupChild ch c with
            | none => simp [hnp]
            | some ch0 => simp [hnp]

theorem walk_foldl (ws : List (List Char)) : ∀ (t : Trie) (p : List Char),
    ( trie_has_prefix (ws.foldl (fun t w => insertT t w w) t) p).1 = true
      ↔ (( trie_has_prefix t p).1 = true ∨ ∃ w ∈ ws, PrefOf p w) := by
  induction ws with
  | nil =>
      intro t p
      simp
  | cons w ws' ih =>
      intro t p
      rw [List.foldl_cons, ih, walk_insert]
      constructor
      · rintro ((h | h) | ⟨w', hw', h⟩)
        · exact Or.inl h
        · exact Or.inr ⟨w, by simp, h⟩
        · exact Or.inr ⟨w', by simp [hw'], h⟩
      · rintro (h | ⟨w', hw', h⟩)
        · exact Or.inl (Or.inl h)
        · rcases List.mem_cons.mp hw' with h1 | h1
          · subst h1
            exact Or.inl (Or.inr h)
          · exact Or.inr ⟨w', h1, h⟩

/-- **C5**: for every list of words and every string `p`,
`trie_has_prefix(create_trie(words), p)` returns True exactly when `p` is
the empty string or `p` is a prefix of some word in `words`; and the lookup
never modifies the trie (the final trie equals the original). -/
theorem claim5_trie_has_prefix_correct (ws : List (List Char)) (p : List Char) :
    (( trie_has_prefix (create_trie ws) p).1 = true
        ↔ (p = [] ∨ ∃ w ∈ ws, PrefOf p w))
    ∧ ( trie_has_prefix (create_trie ws) p).2 = create_trie ws := by
  constructor
  · rw [create_trie, walk_foldl, empty_walk]
  · exact trie_has_prefix_snd p _

theorem pickMin_none_iff (ls : List (List ℤ)) :
    pickMin ls = none ↔ ∀ l ∈ ls, l = [] := by
  induction ls with
  | nil => simp [pickMin]
  | cons l rest ih =>
      cases l with
      | nil =>
          rw [pickMin]
          cases hr : pickMin rest with
          | none =>
              constructor
              · intro _ l hl
                rcases List.mem_cons.mp hl with h1 | h1
                · exact h1
                · exact ih.mp hr l h1
              · intro _
                rfl
          | some p =>
              obtain ⟨v, ls0⟩ := p
              simp only [hr]
              constructor
              · intro h
                exact absurd h (by simp)
              · intro h
                have : pickMin rest = none := ih.mpr (fun x hx => h x (by simp [hx]))
                rw [hr] at this
                exact absurd this (by simp)
      | cons x xs =>
          rw [pickMin]
          cases hr : pickMin rest with
          | none => simp
          | some p =>
              obtain ⟨v, ls0⟩ := p
              simp only
              constructor
              · intro h
                by_cases hx : x ≤ v <;> simp [hx] at h
              · intro h
                exact absurd (h (x :: xs) (by simp)) (by simp)

theorem pickMin_le {ls : List (List ℤ)} {v : ℤ} {ls' : List (List ℤ)}
    (h : pickMin ls = some (v, ls'))
    (hs : ∀ l ∈ ls, l.Sorted (· ≤ ·)) :
    ∀ y ∈ ls'.flatten, v ≤ y := by
  induction ls generalizing v ls' with
  | nil => simp [pickMin] at h
  | cons l rest ih =>
      cases l with
      | nil =>
          rw [pickMin] at h
          cases hr : pickMin rest with
          | none =>
              rw [hr] at h
              simp at h
          | some p =>
              obtain ⟨v0, ls0⟩ := p
              rw [hr] at h
              simp only [Option.some.injEq, Prod.mk.injEq] at h
              obtain ⟨hv, hl⟩ := h
              subst hv
              subst hl
              intro y hy
              simp only [List.flatten_cons, List.nil_append] at hy
              exact ih hr (fun x hx => hs x (by simp [hx])) y hy
      | cons x xs =>
          have hsx : (x :: xs).Sorted (· ≤ ·) := hs (x :: xs) (by simp)
          rw [pickMin] at h
          cases hr : pickMin rest with
          | none =>
              rw [hr] at h
              simp only [Option.some.injEq, Prod.mk.injEq] at h
              obtain ⟨hv, hl⟩ := h
              subst hv
              subst hl
              intro y hy
              simp only [List.flatten_cons] at hy
              rcases List.mem_append.mp hy with h1 | h1
              · exact List.rel_of_sorted_cons hsx y h1
              · have : rest.flatten = [] := by
                  have hall := (pickMin_none_iff rest).mp hr
                  simp only [List.flatten_eq_nil_iff]
                  exact hall
                rw [this] at h1
                simp at h1
          | some p =>
              obtain ⟨v0, ls0⟩ := p
              rw [hr] at h
              simp only at h
              have hrle := ih hr (fun l hl => hs l (by simp [hl]))
              have hperm := pickMin_flatten hr
              by_cases hx : x ≤ v0
              · rw [if_pos hx] at h
                simp only [Option.some.injEq, Prod.mk.injEq] at h
                obtain ⟨hv, hl⟩ := h
                subst hv
                subst hl
                intro y hy
                simp only [List.flatten_cons] at hy
                rcases List.mem_append.mp hy with h1 | h1
                · exact List.rel_of_sorted_cons hsx y h1
                · have hy2 := hperm.mem_iff.mp h1
                  rcases List.mem_cons.mp hy2 with h2 | h2
                  · subst h2
                    exact hx
                  · exact le_trans hx (hrle y h2)
              · rw [if_neg hx] at h
                simp only [Option.some.injEq, Prod.mk.injEq] at h
                obtain ⟨hv, hl⟩ := h
                subst hv
                subst hl
                have hvx : v0 ≤ x := le_of_lt (lt_of_not_le hx)
                intro y hy
                simp only [List.flatten_cons] at hy
                rcases List.mem_append.mp hy with h1 | h1
                · rcases List.mem_cons.mp h1 with h2 | h2
                  · subst h2
                    exact hvx
                  · exact le_trans hvx (List.rel_of_sorted_cons hsx y h2)
                · exact hrle y h1

theorem pickMin_sorted {ls : List (List ℤ)} {v : ℤ} {ls' : List (List ℤ)}
    (h : pickMin ls = some (v, ls'))
    (hs : ∀ l ∈ ls, l.Sorted (· ≤ ·)) :
    ∀ l ∈ ls', l.Sorted (· ≤ ·) := by
  induction ls generalizing v ls' with
  | nil => simp [pickMin] at h
  | cons l0 rest ih =>
      cases l0 with
      | nil =>
          rw [pickMin] at h
          cases hr : pickMin rest with
          | none =>
              rw [hr] at h
              simp at h
          | some p =>
              obtain ⟨v0, ls0⟩ := p
              rw [hr] at h
              simp only [Option.some.injEq, Prod.mk.injEq] at h
              obtain ⟨hv, hl⟩ := h
              subst hv
              subst hl
              intro l hl
              rcases List.mem_cons.mp hl with h1 | h1
              · subst h1
                simp
              · exact ih hr (fun x hx => hs x (by simp [hx])) l h1
      | cons x xs =>
          have hsx : (x :: xs).Sorted (· ≤ ·) := hs (x :: xs) (by simp)
          rw [pickMin] at h
          cases hr : pickMin rest with
          | none =>
              rw [hr] at h
              simp only [Option.some.injEq, Prod.mk.injEq] at h
              obtain ⟨hv, hl⟩ := h
              subst hv
              subst hl
              intro l hl
              rcases List.mem_cons.mp hl with h1 | h1
              · subst h1
                exact hsx.of_cons
              · exact hs l (by simp [h1])
          | some p =>
              obtain ⟨v0, ls0⟩ := p
              rw [hr] at h
              simp only at h
              by_cases hx : x ≤ v0
              · rw [if_pos hx] at h
                simp only [Option.some.injEq, Prod.mk.injEq] at h
                obtain ⟨hv, hl⟩ := h
                subst hv
                subst hl
                intro l hl
                rcases List.mem_cons.mp hl with h1 | h1
                · subst h1
                  exact hsx.of_cons
                · exact hs l (by simp [h1])
              · rw [if_neg hx] at h
                simp only [Option.some.injEq, Prod.mk.injEq] at h
                obtain ⟨hv, hl⟩ := h
                subst hv
                subst hl
                intro l hl
                rcases List.mem_cons.mp hl with h1 | h1
                · subst h1
                  exact hsx
                · exact ih hr (fun l2 hl2 => hs l2 (by simp [hl2])) l h1

theorem mergeAll_perm : ∀ (k : ℕ) (ls : List (List ℤ)), ls.flatten.length ≤ k →
    (mergeAll ls).Perm ls.flatten := by
  intro k
  induction k with
  | zero =>
      intro ls hk
      cases hp : pickMin ls with
      | none =>
          rw [mergeAll, hp]
          have hall := (pickMin_none_iff ls).mp hp
          have : ls.flatten = [] := List.flatten_eq_nil_iff.mpr hall
          rw [this]
      | some p =>
          obtain ⟨v, ls'⟩ := p
          have := pickMin_flatten_length hp
          omega
  | succ k ih =>
      intro ls hk
      cases hp : pickMin ls with
      | none =>
          rw [mergeAll, hp]
          have hall := (pickMin_none_iff ls).mp hp
          have : ls.flatten = [] := List.flatten_eq_nil_iff.mpr hall
          rw [this]
      | some p =>
          obtain ⟨v, ls'⟩ := p
          rw [mergeAll, hp]
          have hlen := pickMin_flatten_length hp
          have hrec := ih ls' (by omega)
          exact ((pickMin_flatten hp).trans (hrec.symm.cons v)).symm

theorem mergeAll_sorted : ∀ (k : ℕ) (ls : List (List ℤ)), ls.flatten.length ≤ k →
    (∀ l ∈ ls, l.Sorted (· ≤ ·)) → (mergeAll ls).Sorted (· ≤ ·) := by
  intro k
  induction k with
  | zero =>
      intro ls hk hs
      cases hp : pickMin ls with
      | none =>
          rw [mergeAll, hp]
          exact List.sorted_nil
      | some p =>
          obtain ⟨v, ls'⟩ := p
          have := pickMin_flatten_length hp
          omega
  | succ k ih =>
      intro ls hk hs
      cases hp : pickMin ls with
      | none =>
          rw [mergeAll, hp]
          exact List.sorted_nil
      | some p =>
          obtain ⟨v, ls'⟩ := p
          rw [mergeAll, hp]
          have hlen := pickMin_flatten_length hp
          have hsorted' := pickMin_sorted hp hs
          have hrec := ih ls' (by omega) hsorted'
          rw [List.sorted_cons]
          refine ⟨?_, hrec⟩
          intro y hy
          have hmem : y ∈ ls'.flatten :=
            (mergeAll_perm k ls' (by omega)).mem_iff.mp hy
          exact pickMin_le hp hs y hmem

/-- **C6**: for every finite collection of ascending-sorted lists,
`merge_sorted(*iterables)` returns a single ascending-sorted list that is a
permutation of the concatenation of the inputs. -/
theorem claim6_merge_sorted_correct (ls : List (List ℤ))
    (hs : ∀ l ∈ ls, l.Sorted (· ≤ ·)) :
    (merge_sorted ls).Sorted (· ≤ ·) ∧ (merge_sorted ls).Perm ls.flatten :=
  ⟨mergeAll_sorted ls.flatten.length ls (le_refl _) hs,
    mergeAll_perm ls.flatten.length ls (le_refl _)⟩

theorem claim6_witness :
    (∀ l ∈ [[1, 3], [2], ([] : List ℤ)], l.Sorted (· ≤ ·))
    ∧ (merge_sorted [[1, 3], [2], ([] : List ℤ)]).Sorted (· ≤ ·)
    ∧ (merge_sorted [[1, 3], [2], ([] : List ℤ)]).Perm
        ([[1, 3], [2], ([] : List ℤ)]).flatten := by
  have h := claim6_merge_sorted_correct [[1, 3], [2], ([] : List ℤ)] (by decide)
  exact ⟨by decide, h.1, h.2⟩

/-- **C10**: `heapify_list`, `heap_sort` and `max_heap_sort` never mutate
their argument — after the call the caller's list is exactly what was
passed in (each works on a copy) — whereas `heap_push` and `heap_pop` do
mutate the heap list passed to them (`heap_pop` on a non-empty list). -/
theorem claim10_mutation (items h : List ℤ) (x : ℤ) :
    (heapify_list items).2 = items
    ∧ (heap_sort items).2 = items
    ∧ (max_heap_sort items).2 = items
    ∧ (heap_push h x).2 ≠ h
    ∧ (h ≠ [] → (heap_pop h).2 ≠ h) := by
  refine ⟨rfl, rfl, rfl, ?_, ?_⟩
  · intro heq
    have hlen := congrArg List.length heq
    rw [heap_push] at hlen
    simp only [pyHeappush, List.orderedInsert_length] at hlen
    omega
  · intro hne heq
    cases h with
    | nil => exact hne rfl
    | cons a rest =>
        rw [heap_pop] at heq
        simp only [pyHeappop] at heq
        have hlen := congrArg List.length heq
        simp at hlen

theorem claim10_witness :
    (heapify_list [2, 1]).2 = [2, 1]
    ∧ (heap_sort [2, 1]).2 = [2, 1]
    ∧ (max_heap_sort [2, 1]).2 = [2, 1]
    ∧ (heap_push [1] 0).2 ≠ [1]
    ∧ ([1] ≠ ([] : List ℤ) ∧ (heap_pop [1]).2 ≠ [1]) := by
  have h := claim10_mutation [2, 1] [1] 0
  exact ⟨h.1, h.2.1, h.2.2.1, h.2.2.2.1, by decide, h.2.2.2.2 (by decide)⟩

theorem entryAt_set_self {st : List (ℤ × Option String)} {id : ℕ}
    (h : id < st.length) (e : ℤ × Option String) :
    entryAt (st.set id e) id = e := by
  simp [entryAt, List.getD_eq_getElem?_getD, List.getElem?_set_self h]

theorem entryAt_set_ne {st : List (ℤ × Option String)} {id j : ℕ}
    (h : j ≠ id) (e : ℤ × Option String) :
    entryAt (st.set id e) j = entryAt st j := by
  simp [entryAt, List.getD_eq_getElem?_getD, List.getElem?_set_ne (Ne.symm h)]

theorem entryAt_append_lt {st : List (ℤ × Option String)} {j : ℕ}
    (h : j < st.length) (e : ℤ × Option String) :
    entryAt (st ++ [e]) j = entryAt st j := by
  simp [entryAt, List.getD_eq_getElem?_getD, List.getElem?_append_left h]

theorem entryAt_append_self (st : List (ℤ × Option String)) (e : ℤ × Option String) :
    entryAt (st ++ [e]) st.length = e := by
  simp [entryAt, List.getD_eq_getElem?_getD, List.getElem?_concat_length]

theorem keyLeB_true_le {a b : ℤ × String} (h : keyLeB a b = true) : a.1 ≤ b.1 := by
  simp only [keyLeB, Bool.or_eq_true, Bool.and_eq_true, decide_eq_true_eq] at h
  rcases h with h | ⟨h1, _⟩
  · exact le_of_lt h
  · exact le_of_eq h1

theorem keyLeB_false_le {a b : ℤ × String} (h : keyLeB a b = false) : b.1 ≤ a.1 := by
  simp only [keyLeB, Bool.or_eq_false_iff, Bool.and_eq_false_iff] at h
  have h1 := h.1
  simp only [decide_eq_false_iff_not] at h1
  exact le_of_not_lt h1

theorem mem_insHeap (st : List (ℤ × Option String)) (id : ℕ) :
    ∀ (h : List ℕ) (j : ℕ), j ∈ insHeap st id h ↔ j = id ∨ j ∈ h := by
  intro h
  induction h with
  | nil =>
      intro j
      simp [insHeap]
  | cons k ks ih =>
      intro j
      rw [insHeap]
      by_cases hk : keyLeB (entryKey st id) (entryKey st k) = true
      · rw [if_pos hk]
        simp [List.mem_cons]
      · rw [if_neg hk]
        simp only [List.mem_cons, ih j]
        tauto

theorem insHeap_nodup (st : List (ℤ × Option String)) (id : ℕ) :
    ∀ (h : List ℕ), id ∉ h → h.Nodup → (insHeap st id h).Nodup := by
  intro h
  induction h with
  | nil =>
      intro _ _
      simp [insHeap]
  | cons k ks ih =>
      intro hid hnd
      rw [insHeap]
      rw [List.nodup_cons] at hnd
      by_cases hk : keyLeB (entryKey st id) (entryKey st k) = true
      · rw [if_pos hk]
        rw [List.nodup_cons, List.nodup_cons]
        refine ⟨?_, hnd⟩
        intro hmem
        rcases List.mem_cons.mp hmem with h1 | h1
        · exact hid (h1 ▸ List.mem_cons_self k ks)
        · exact hid (List.mem_cons.mpr (Or.inr h1))
      · rw [if_neg hk]
        rw [List.nodup_cons]
        constructor
        · intro hmem
          rcases (mem_insHeap st id ks k).mp hmem with h1 | h1
          · exact hid (h1 ▸ List.mem_cons_self k ks)
          · exact hnd.1 h1
        · exact ih (fun hm => hid (List.mem_cons.mpr (Or.inr hm))) hnd.2

theorem insHeap_sorted (st : List (ℤ × Option String)) (id : ℕ) :
    ∀ (h : List ℕ),
      h.Sorted (fun a b => (entryAt st a).1 ≤ (entryAt st b).1) →
      (insHeap st id h).Sorted (fun a b => (entryAt st a).1 ≤ (entryAt st b).1) := by
  intro h
  induction h with
  | nil =>
      intro _
      simp [insHeap]
  | cons k ks ih =>
      intro hs
      rw [insHeap]
      rw [List.sorted_cons] at hs
      obtain ⟨hk_le, hks⟩ := hs
      by_cases hkey : keyLeB (entryKey st id) (entryKey st k) = true
      · rw [if_pos hkey]
        rw [List.sorted_cons]
        refine ⟨?_, List.sorted_cons.mpr ⟨hk_le, hks⟩⟩
        intro b hb
        rcases List.mem_cons.mp hb with h1 | h1
        · subst h1
          exact keyLeB_true_le hkey
        · exact le_trans (keyLeB_true_le hkey) (hk_le b h1)
      · rw [if_neg hkey]
        rw [List.sorted_cons]
        constructor
        · intro b hb
          rcases (mem_insHeap st id ks b).mp hb with h1 | h1
          · subst h1
            exact keyLeB_false_le (Bool.eq_false_iff.mpr hkey)
          · exact hk_le b h1
        · exact ih hks

theorem sorted_transfer {st st' : List (ℤ × Option String)} {hp : List ℕ}
    (h : ∀ id ∈ hp, (entryAt st' id).1 = (entryAt st id).1) :
    hp.Sorted (fun a b => (entryAt st a).1 ≤ (entryAt st b).1) →
    hp.Sorted (fun a b => (entryAt st' a).1 ≤ (entryAt st' b).1) := by
  intro hs
  refine List.Pairwise.imp_of_mem ?_ hs
  intro a b ha hb hab
  rw [h a ha, h b hb]
  exact hab

theorem erase_facts {s : IHState} {item : String} {id0 : ℕ}
    (hinv : IHInv s) (hfind : s.entry_finder item = some id0) :
    IHInv (eraseEntry s item id0)
    ∧ (eraseEntry s item id0).entry_finder item = none
    ∧ (∀ id, (entryAt (eraseEntry s item id0).store id).1 = (entryAt s.store id).1)
    ∧ (eraseEntry s item id0).store.length = s.store.length
    ∧ (∀ it, it ≠ item → (eraseEntry s item id0).entry_finder it = s.entry_finder it)
    ∧ (eraseEntry s item id0).heap = s.heap := by
  obtain ⟨hsort, hrange, hnodup, hfs, hsf⟩ := hinv
  obtain ⟨hid0mem, hid0slot⟩ := hfs item id0 hfind
  have hid0lt := hrange id0 hid0mem
  have hpr : ∀ id, (entryAt (s.store.set id0 ((entryAt s.store id0).1, none)) id).1
      = (entryAt s.store id).1 := by
    intro id
    by_cases h : id = id0
    · subst h
      rw [entryAt_set_self hid0lt]
    · rw [entryAt_set_ne h]
  have hsl : ∀ id, id ≠ id0 →
      (entryAt (s.store.set id0 ((entryAt s.store id0).1, none)) id).2
        = (entryAt s.store id).2 := by
    intro id h
    rw [entryAt_set_ne h]
  have hsl0 : (entryAt (s.store.set id0 ((entryAt s.store id0).1, none)) id0).2 = none := by
    rw [entryAt_set_self hid0lt]
  refine ⟨⟨?_, ?_, hnodup, ?_, ?_⟩, by simp [eraseEntry], hpr, by simp [eraseEntry], ?_, rfl⟩
  · exact sorted_transfer (fun id _ => hpr id) hsort
  · intro id hid
    simpa [eraseEntry] using hrange id hid
  · intro it id hit
    simp only [eraseEntry] at hit
    by_cases h : it = item
    · rw [if_pos h] at hit
      exact absurd hit (by simp)
    · rw [if_neg h] at hit
      obtain ⟨hmem, hslot⟩ := hfs it id hit
      refine ⟨hmem, ?_⟩
      have hne : id ≠ id0 := by
        intro heq
        subst heq
        rw [hslot] at hid0slot
        injection hid0slot with hh
        exact h hh
      simp only [eraseEntry]
      rw [hsl id hne]
      exact hslot
  · intro id hid it hit
    simp only [eraseEntry] at hit ⊢
    have hne : id ≠ id0 := by
      intro heq
      subst heq
      rw [hsl0] at hit
      exact absurd hit (by simp)
    rw [hsl id hne] at hit
    have := hsf id hid it hit
    by_cases h : it = item
    · subst h
      rw [hfind] at this
      injection this with hh
      exact absurd hh.symm hne
    · rw [if_neg h]
      exact this
  · intro it h
    simp only [eraseEntry]
    rw [if_neg h]

theorem raw_push_inv {s1 : IHState} (hinv : IHInv s1)
    (item : String) (prio : ℤ)
    (hfresh : s1.entry_finder item = none) :
    IHInv ⟨s1.store ++ [(prio, some item)],
           insHeap (s1.store ++ [(prio, some item)]) s1.store.length s1.heap,
           fun x => if x = item then some s1.store.length else s1.entry_finder x⟩ := by
  obtain ⟨hsort, hrange, hnodup, hfs, hsf⟩ := hinv
  have hnolive : ∀ id ∈ s1.heap, (entryAt s1.store id).2 ≠ some item := by
    intro id hid hslot
    have := hsf id hid item hslot
    rw [hfresh] at this
    exact absurd this (by simp)
  have hold : ∀ id ∈ s1.heap,
      entryAt (s1.store ++ [(prio, some item)]) id = entryAt s1.store id := by
    intro id hid
    exact entryAt_append_lt (hrange id hid) _
  have hnew : entryAt (s1.store ++ [(prio, some item)]) s1.store.length
      = (prio, some item) := entryAt_append_self _ _
  have hnotin : s1.store.length ∉ s1.heap := by
    intro hmem
    exact absurd (hrange _ hmem) (by omega)
  refine ⟨?_, ?_, ?_, ?_, ?_⟩
  · apply insHeap_sorted
    exact sorted_transfer (fun id hid => by rw [hold id hid]) hsort
  · intro id hid
    rcases (mem_insHeap _ _ _ _).mp hid with h1 | h1
    · subst h1
      simp
    · have := hrange id h1
      simp only [List.length_append, List.length_cons, List.length_nil]
      omega
  · exact insHeap_nodup _ _ _ hnotin hnodup
  · intro it id hit
    simp only at hit
    by_cases h : it = item
    · rw [if_pos h] at hit
      injection hit with hid
      subst hid
      subst h
      exact ⟨(mem_insHeap _ _ _ _).mpr (Or.inl rfl), by rw [hnew]⟩
    · rw [if_neg h] at hit
      obtain ⟨hmem, hslot⟩ := hfs it id hit
      exact ⟨(mem_insHeap _ _ _ _).mpr (Or.inr hmem),
        by rw [hold id hmem]; exact hslot⟩
  · intro id hid it hit
    simp only at hit ⊢
    rcases (mem_insHeap _ _ _ _).mp hid with h1 | h1
    · subst h1
      rw [hnew] at hit
      injection hit with hh
      rw [if_pos hh.symm]
    · rw [hold id h1] at hit
      have h2 := hsf id h1 it hit
      have hne : it ≠ item := by
        intro heq
        subst heq
        exact hnolive id h1 hit
      rw [if_neg hne]
      exact h2

theorem ihPush_eq_none {s : IHState} (item : String) (prio : ℤ)
    (hf : s.entry_finder item = none) :
    ihPush s item prio
      = ⟨s.store ++ [(prio, some item)],
         insHeap (s.store ++ [(prio, some item)]) s.store.length s.heap,
         fun x => if x = item then some s.store.length else s.entry_finder x⟩ := by
  rw [ihPush]
  rw [hf]

theorem ihPush_eq_some {s : IHState} (item : String) (prio : ℤ) {id0 : ℕ}
    (hf : s.entry_finder item = some id0) :
    ihPush s item prio
      = ⟨(eraseEntry s item id0).store ++ [(prio, some item)],
         insHeap ((eraseEntry s item id0).store ++ [(prio, some item)])
           (eraseEntry s item id0).store.length (eraseEntry s item id0).heap,
         fun x => if x = item then some (eraseEntry s item id0).store.length
                  else (eraseEntry s item id0).entry_finder x⟩ := by
  rw [ihPush]
  rw [hf]

theorem ihPush_inv {s : IHState} (hinv : IHInv s) (item : String) (prio : ℤ) :
    IHInv (ihPush s item prio) := by
  cases hf : s.entry_finder item with
  | none =>
      rw [ihPush_eq_none item prio hf]
      exact raw_push_inv hinv item prio hf
  | some id0 =>
      rw [ihPush_eq_some item prio hf]
      obtain ⟨hinv1, hnone1, _, _, _, _⟩ := erase_facts hinv hf
      exact raw_push_inv hinv1 item prio hnone1

theorem ihPush_finderPrio {s : IHState} (hinv : IHInv s) (item : String) (prio : ℤ) :
    ∀ it, ((ihPush s item prio).entry_finder it).map
        (fun id => (entryAt (ihPush s item prio).store id).1)
      = if it = item then some prio
        else (s.entry_finder it).map (fun id => (entryAt s.store id).1) := by
  intro it
  cases hf : s.entry_finder item with
  | none =>
      rw [ihPush_eq_none item prio hf]
      dsimp only
      by_cases h : it = item
      · rw [if_pos h, if_pos h]
        simp [entryAt_append_self]
      · rw [if_neg h, if_neg h]
        cases hfi : s.entry_finder it with
        | none => rfl
        | some id =>
            obtain ⟨hsort, hrange, hnodup, hfs, hsf⟩ := hinv
            obtain ⟨hmem, _⟩ := hfs it id hfi
            have hlt := hrange id hmem
            dsimp only [Option.map]
            rw [entryAt_append_lt hlt]
  | some id0 =>
      rw [ihPush_eq_some item prio hf]
      obtain ⟨hinv1, hnone1, hpr1, hlen1, hfin1, hheap1⟩ := erase_facts hinv hf
      dsimp only
      by_cases h : it = item
      · rw [if_pos h, if_pos h]
        simp [entryAt_append_self]
      · rw [if_neg h, if_neg h]
        rw [hfin1 it h]
        cases hfi : s.entry_finder it with
        | none => rfl
        | some id =>
            obtain ⟨hsort, hrange, hnodup, hfs, hsf⟩ := hinv
            obtain ⟨hmem, _⟩ := hfs it id hfi
            have hlt := hrange id hmem
            have hlt1 : id < (eraseEntry s item id0).store.length := by
              rw [hlen1]
              exact hlt
            dsimp only [Option.map]
            rw [entryAt_append_lt hlt1, hpr1 id]

theorem ihRemove_spec {s : IHState} {item : String} {s' : IHState}
    (hinv : IHInv s) (h : ihRemove s item = some s') :
    IHInv s' ∧ ∀ it, (s'.entry_finder it).map (fun id => (entryAt s'.store id).1)
      = if it = item then none
        else (s.entry_finder it).map (fun id => (entryAt s.store id).1) := by
  rw [ihRemove] at h
  cases hf : s.entry_finder item with
  | none =>
      rw [hf] at h
      simp at h
  | some id0 =>
      rw [hf] at h
      dsimp only at h
      injection h with h
      subst h
      obtain ⟨hinv1, hnone1, hpr1, hlen1, hfin1, hheap1⟩ := erase_facts hinv hf
      refine ⟨hinv1, ?_⟩
      intro it
      by_cases hx : it = item
      · rw [if_pos hx, hx, hnone1]
        rfl
      · rw [if_neg hx, hfin1 it hx]
        cases hfi : s.entry_finder it with
        | none => rfl
        | some id =>
            dsimp only [Option.map]
            rw [hpr1 id]

theorem ihInit_inv : IHInv ihInit := by
  refine ⟨?_, ?_, ?_, ?_, ?_⟩ <;> simp [ihInit]

theorem ihRunFrom_spec : ∀ (ops : List IHOp) (s0 : IHState) (m : String → Option ℤ)
    (s : IHState),
    IHInv s0 →
    (∀ it, (s0.entry_finder it).map (fun id => (entryAt s0.store id).1) = m it) →
    ihRunFrom s0 ops = some s →
    IHInv s ∧ ∀ it, (s.entry_finder it).map (fun id => (entryAt s.store id).1)
      = specF m ops it := by
  intro ops
  induction ops with
  | nil =>
      intro s0 m s hinv hm hrun
      rw [ihRunFrom] at hrun
      injection hrun with hrun
      subst hrun
      exact ⟨hinv, fun it => hm it⟩
  | cons op ops' ih =>
      intro s0 m s hinv hm hrun
      rw [ihRunFrom] at hrun
      cases op with
      | push it0 p =>
          simp only [ihStep] at hrun
          refine ih (ihPush s0 it0 p) (fun x => if x = it0 then some p else m x) s
            (ihPush_inv hinv it0 p) ?_ hrun
          intro it
          rw [ihPush_finderPrio hinv it0 p it]
          by_cases h : it = it0
          · simp [h]
          · simp [h, hm it]
      | remove it0 =>
          simp only [ihStep] at hrun
          cases hrem : ihRemove s0 it0 with
          | none =>
              rw [hrem] at hrun
              simp at hrun
          | some s1 =>
              rw [hrem] at hrun
              simp only at hrun
              obtain ⟨hinv1, hm1⟩ := ihRemove_spec hinv hrem
              refine ih s1 (fun x => if x = it0 then none else m x) s hinv1 ?_ hrun
              intro it
              rw [hm1 it]
              by_cases h : it = it0
              · simp [h]
              · simp [h, hm it]

theorem ihRun_spec {ops : List IHOp} {s : IHState} (h : ihRun ops = some s) :
    IHInv s ∧ ∀ it, (s.entry_finder it).map (fun id => (entryAt s.store id).1)
      = specF (fun _ => none) ops it :=
  ihRunFrom_spec ops ihInit (fun _ => none) s ihInit_inv (fun _ => rfl) h

theorem ihPop_spec : ∀ (k : ℕ) (s : IHState), s.heap.length ≤ k → IHInv s →
    (ihPop s = none ↔ ∀ it, s.entry_finder it = none)
    ∧ (∀ item s', ihPop s = some (item, s') →
        (∃ id, s.entry_finder item = some id
           ∧ ∀ it' id', s.entry_finder it' = some id' →
               (entryAt s.store id).1 ≤ (entryAt s.store id').1)
        ∧ s'.entry_finder item = none
        ∧ (∀ it, it ≠ item → s'.entry_finder it = s.entry_finder it)) := by
  intro k
  induction k with
  | zero =>
      intro s hk hinv
      obtain ⟨hsort, hrange, hnodup, hfs, hsf⟩ := hinv
      have hempty : s.heap = [] := List.length_eq_zero.mp (Nat.le_zero.mp hk)
      constructor
      · rw [ihPop]
        rw [hempty]
        simp only [true_iff]
        intro it
        cases hfi : s.entry_finder it with
        | none => rfl
        | some id =>
            obtain ⟨hmem, _⟩ := hfs it id hfi
            rw [hempty] at hmem
            simp at hmem
      · intro item s' hpop
        rw [ihPop] at hpop
        rw [hempty] at hpop
        simp at hpop
  | succ k ih =>
      intro s hk hinv
      obtain ⟨hsort, hrange, hnodup, hfs, hsf⟩ := hinv
      cases hheap : s.heap with
      | nil =>
          constructor
          · rw [ihPop, hheap]
            simp only [true_iff]
            intro it
            cases hfi : s.entry_finder it with
            | none => rfl
            | some id =>
                obtain ⟨hmem, _⟩ := hfs it id hfi
                rw [hheap] at hmem
                simp at hmem
          · intro item s' hpop
            rw [ihPop, hheap] at hpop
            simp at hpop
      | cons id rest =>
          have hidmem : id ∈ s.heap := by
            rw [hheap]
            simp
          cases hslot : (entryAt s.store id).2 with
          | some item0 =>
              have hfid : s.entry_finder item0 = some id := hsf id hidmem item0 hslot
              have hpop : ihPop s
                  = some (item0, ⟨s.store, rest,
                      fun x => if x = item0 then none else s.entry_finder x⟩) := by
                rw [ihPop, hheap]
                dsimp only
                rw [hslot]
              constructor
              · rw [hpop]
                constructor
                · intro h
                  exact absurd h (by simp)
                · intro hall
                  rw [hall item0] at hfid
                  exact absurd hfid (by simp)
              · intro item s' hps
                rw [hpop] at hps
                injection hps with hps
                injection hps with h1 h2
                subst h1
                subst h2
                refine ⟨⟨id, hfid, ?_⟩, by simp, ?_⟩
                · intro it' id' hfi'
                  obtain ⟨hmem', _⟩ := hfs it' id' hfi'
                  rw [hheap] at hmem'
                  rcases List.mem_cons.mp hmem' with h1 | h1
                  · subst h1
                    exact le_refl _
                  · rw [hheap] at hsort
                    exact List.rel_of_sorted_cons hsort id' h1
                · intro it hit
                  simp [hit]
          | none =>
              have hpop : ihPop s = ihPop ⟨s.store, rest, s.entry_finder⟩ := by
                rw [ihPop, hheap]
                dsimp only
                rw [hslot]
              have hinv2 : IHInv ⟨s.store, rest, s.entry_finder⟩ := by
                refine ⟨?_, ?_, ?_, ?_, ?_⟩
                · rw [hheap] at hsort
                  exact hsort.of_cons
                · intro j hj
                  exact hrange j (by rw [hheap]; simp [hj])
                · rw [hheap] at hnodup
                  exact hnodup.of_cons
                · intro it j hfi
                  obtain ⟨hmem, hsl⟩ := hfs it j hfi
                  rw [hheap] at hmem
                  rcases List.mem_cons.mp hmem with h1 | h1
                  · subst h1
                    rw [hsl] at hslot
                    exact absurd hslot (by simp)
                  · exact ⟨h1, hsl⟩
                · intro j hj it hsl
                  exact hsf j (by rw [hheap]; simp [hj]) it hsl
              have hlen2 : rest.length ≤ k := by
                rw [hheap] at hk
                simp only [List.length_cons] at hk
                omega
              have hrec := ih ⟨s.store, rest, s.entry_finder⟩ hlen2 hinv2
              rw [hpop]
              exact hrec

/-- **C3**: after any sequence of `push(item, priority)` and `remove(item)`
operations that completes without raising, `pop()` returns an item whose
priority is minimal among the items currently present (pushed and not
since removed — i.e. the domain of `entry_finder`), deletes that item from
the structure, and raises KeyError exactly when no item is present. -/
theorem claim3_pop_correct (ops : List IHOp) (s : IHState) (h : ihRun ops = some s) :
    (ihPop s = none ↔ ∀ it, s.entry_finder it = none)
    ∧ (∀ item s', ihPop s = some (item, s') →
        (∃ id, s.entry_finder item = some id
           ∧ ∀ it' id', s.entry_finder it' = some id' →
               (entryAt s.store id).1 ≤ (entryAt s.store id').1)
        ∧ s'.entry_finder item = none) := by
  have hinv := (ihRun_spec h).1
  have hspec := ihPop_spec s.heap.length s (le_refl _) hinv
  exact ⟨hspec.1, fun item s' hp =>
    ⟨(hspec.2 item s' hp).1, (hspec.2 item s' hp).2.1⟩⟩

theorem claim3_witness :
    (ihPop (ihPush (ihPush ihInit "a" 2) "b" 1) = none
       ↔ ∀ it, (ihPush (ihPush ihInit "a" 2) "b" 1).entry_finder it = none)
    ∧ (∀ item s', ihPop (ihPush (ihPush ihInit "a" 2) "b" 1) = some (item, s') →
        (∃ id, (ihPush (ihPush ihInit "a" 2) "b" 1).entry_finder item = some id
           ∧ ∀ it' id',
               (ihPush (ihPush ihInit "a" 2) "b" 1).entry_finder it' = some id' →
               (entryAt (ihPush (ihPush ihInit "a" 2) "b" 1).store id).1
                 ≤ (entryAt (ihPush (ihPush ihInit "a" 2) "b" 1).store id').1)
        ∧ s'.entry_finder item = none) :=
  claim3_pop_correct [IHOp.push "a" 2, IHOp.push "b" 1] _ rfl

/-- **C8**: every item has at most one live (non-REMOVED) entry, because
`push` on an item already in `entry_finder` first removes the stale entry;
after any operation sequence `entry_finder` maps every present item to the
entry of its most recent push (priority included), and the entry a later
`pop` observes for the returned item is that most recently pushed one. -/
theorem claim8_entry_finder_current (ops : List IHOp) (s : IHState)
    (h : ihRun ops = some s) :
    (∀ id1 ∈ s.heap, ∀ id2 ∈ s.heap, ∀ it : String,
        (entryAt s.store id1).2 = some it → (entryAt s.store id2).2 = some it →
        id1 = id2)
    ∧ (∀ it, (s.entry_finder it).map (fun id => (entryAt s.store id).1)
        = specF (fun _ => none) ops it)
    ∧ (∀ item s', ihPop s = some (item, s') →
        s.entry_finder item ≠ none
        ∧ (s.entry_finder item).map (fun id => (entryAt s.store id).1)
            = specF (fun _ => none) ops item) := by
  obtain ⟨hinv, hmap⟩ := ihRun_spec h
  obtain ⟨hsort, hrange, hnodup, hfs, hsf⟩ := hinv
  refine ⟨?_, hmap, ?_⟩
  · intro id1 h1 id2 h2 it hs1 hs2
    have e1 := hsf id1 h1 it hs1
    have e2 := hsf id2 h2 it hs2
    rw [e1] at e2
    injection e2 with e2
  · intro item s' hp
    have hspec := ihPop_spec s.heap.length s (le_refl _)
      ⟨hsort, hrange, hnodup, hfs, hsf⟩
    obtain ⟨⟨id, hfid, _⟩, _, _⟩ := hspec.2 item s' hp
    refine ⟨?_, hmap item⟩
    rw [hfid]
    simp

theorem claim8_witness :
    (∀ id1 ∈ (ihPush (ihPush ihInit "a" 2) "a" 5).heap,
       ∀ id2 ∈ (ihPush (ihPush ihInit "a" 2) "a" 5).heap, ∀ it : String,
        (entryAt (ihPush (ihPush ihInit "a" 2) "a" 5).store id1).2 = some it →
        (entryAt (ihPush (ihPush ihInit "a" 2) "a" 5).store id2).2 = some it →
        id1 = id2)
    ∧ (∀ it, ((ihPush (ihPush ihInit "a" 2) "a" 5).entry_finder it).map
          (fun id => (entryAt (ihPush (ihPush ihInit "a" 2) "a" 5).store id).1)
        = specF (fun _ => none) [IHOp.push "a" 2, IHOp.push "a" 5] it)
    ∧ (∀ item s', ihPop (ihPush (ihPush ihInit "a" 2) "a" 5) = some (item, s') →
        (ihPush (ihPush ihInit "a" 2) "a" 5).entry_finder item ≠ none
        ∧ ((ihPush (ihPush ihInit "a" 2) "a" 5).entry_finder item).map
            (fun id => (entryAt (ihPush (ihPush ihInit "a" 2) "a" 5).store id).1)
            = specF (fun _ => none) [IHOp.push "a" 2, IHOp.push "a" 5] item) :=
  claim8_entry_finder_current [IHOp.push "a" 2, IHOp.push "a" 5] _ rfl
